import Mathlib

/-!
# A shallow embedding of the `myshell` command interpreter (Project2)

The definitions below are translated from
`src/Project2/150120035_150120004_150121025.c`.

* A byte (`char`) is a `Char`; a C string is the list of the bytes that precede its
  terminating NUL.
* A `char *` is an element of a type `α` together with a function `str : α → CStr` that reads
  the string it points to; `NULL` is `none`.  In `main` the pointers are offsets into
  `inputBuffer` (`α = Nat`).
* Arrays are lists, indexed from 0.
-/

namespace Shell

/-- A C string, without its terminating NUL byte. -/
abbrev CStr := List Char

/-- The NUL byte. -/
def NUL : Char := Char.ofNat 0

/-! ## checkIO -/

/-- The globals `input`, `output`, `append`, `standardError`, `inputFile`, `outputFile`. -/
structure IOGlobals (α : Type) where
  input : Int
  output : Int
  append : Int
  standardError : Int
  inputFile : Option α
  outputFile : Option α
deriving DecidableEq

/-- What one call of `checkIO` leaves behind: its return value, the argument array and the
globals. -/
structure CheckIOResult (α : Type) where
  ret : Int
  args : List (Option α)
  g : IOGlobals α
deriving DecidableEq

/-- The `while (args[i] != NULL)` loop of `checkIO`.  `args` is the whole array, `g` the globals
after the four resets, the third argument is the part of the array from index `i` on (so that
its head is `args[i]` and the head of its tail is `args[i + 1]`).  The result is `none` when the
loop reads past the end of the array (no NULL entry: undefined behaviour in C). -/
def checkIOLoop {α : Type} (str : α → CStr) (args : List (Option α)) (g : IOGlobals α) :
    List (Option α) → Nat → Option (CheckIOResult α)
  | [], _ => none
  | none :: _, _ => some { ret := 0, args := args, g := g }
  | some a :: rest, i =>
    match rest with
    | [] => none
    | next :: _ =>
      if str a = ['<'] then
        some { ret := 1, args := args.set i none,
               g := { g with inputFile := next, outputFile := none, input := 1 } }
      else if str a = ['>'] then
        some { ret := 1, args := args.set i none,
               g := { g with outputFile := next, inputFile := none, output := 1 } }
      else if str a = ['>', '>'] then
        some { ret := 1, args := args.set i none,
               g := { g with outputFile := next, inputFile := none, append := 1 } }
      else if str a = ['2', '>'] then
        some { ret := 1, args := args.set i none,
               g := { g with outputFile := next, inputFile := none, standardError := 1 } }
      else checkIOLoop str args g rest (i + 1)

/-- The function `checkIO`: reset the four flags, then scan from index 0. -/
def checkIO {α : Type} (str : α → CStr) (args : List (Option α)) (g : IOGlobals α) :
    Option (CheckIOResult α) :=
  checkIOLoop str args { g with input := 0, output := 0, append := 0, standardError := 0 } args 0

/-- The argument vector as its readers see it: the entries before the first NULL. -/
def untilNull {α : Type} : List (Option α) → List α
  | [] => []
  | none :: _ => []
  | some a :: rest => a :: untilNull rest

/-- The four redirection operators of the command language. -/
def isRedirOp (t : CStr) : Bool :=
  t = ['<'] || t = ['>'] || t = ['>', '>'] || t = ['2', '>']

/-- The file name that `handleIO` passes to `freopen`: `inputFile` under the `input` flag,
`outputFile` under the three others. -/
def IOGlobals.target {α : Type} (g : IOGlobals α) : Option α :=
  if g.input = 1 then g.inputFile else g.outputFile

/-- The four flags in the order input, output, append, standardError. -/
def IOGlobals.flags {α : Type} (g : IOGlobals α) : Int × Int × Int × Int :=
  (g.input, g.output, g.append, g.standardError)

/-- The flags the reference scan assigns to an operator: 1 for the matching one, 0 for the
others. -/
def opFlags (t : CStr) : Int × Int × Int × Int :=
  (if t = ['<'] then 1 else 0, if t = ['>'] then 1 else 0,
   if t = ['>', '>'] then 1 else 0, if t = ['2', '>'] then 1 else 0)

/-! ## setup -/

/-- The constant `MAX_LINE`. -/
def MAX_LINE : Nat := 80

/-- The value of `errno` after a `read` interrupted by a signal. -/
def EINTR : Int := 4

/-- What `read(STDIN_FILENO, inputBuffer, MAX_LINE)` did: it stored `l` at the start of the
buffer and returned `l.length` (0 at end of input), or it failed, returned -1 and set `errno`.
`read` never stores more than `MAX_LINE` bytes. -/
inductive ReadResult where
  | bytes (l : List Char)
  | error (errno : Int)
deriving DecidableEq

/-- The return value of `read`. -/
def ReadResult.length : ReadResult → Int
  | .bytes l => (l.length : Int)
  | .error _ => -1

/-- The contents of `inputBuffer` after `read`: the bytes read overwrite the start of the
buffer, the rest keeps what it held. -/
def ReadResult.store (inputBuffer : List Char) : ReadResult → List Char
  | .bytes l => l ++ inputBuffer.drop l.length
  | .error _ => inputBuffer

/-- The value of `errno` after `read` (only consulted when `read` returned -1). -/
def ReadResult.errno : ReadResult → Int
  | .bytes _ => 0
  | .error e => e

/-- The variables of `setup` that its loop changes.  An entry of `args` is an offset into
`inputBuffer` (`&inputBuffer[start]`) or NULL. -/
structure SetupState where
  inputBuffer : List Char
  args : List (Option Nat)
  background : Int
  start : Int
  ct : Nat
deriving DecidableEq

/-- The statement `if (start != -1) { args[ct] = &inputBuffer[start]; ct++; }`.  A write to
`args` beyond the end of the array is not modelled (`List.set` leaves the list as it is). -/
def storeArg (s : SetupState) : SetupState :=
  if s.start ≠ -1 then { s with args := s.args.set s.ct (some s.start.toNat), ct := s.ct + 1 }
  else s

/-- One iteration of the `for` loop of `setup`, at index `i`: the `switch` on
`inputBuffer[i]`.  The write `inputBuffer[i - 1] = 0` made for a `&` at index 0 falls before the
buffer and is not modelled. -/
def setupStep (s : SetupState) (i : Nat) : SetupState :=
  let c := s.inputBuffer.getD i NUL
  if c = ' ' ∨ c = '\t' then
    let s1 := storeArg s
    { s1 with inputBuffer := s1.inputBuffer.set i NUL, start := -1 }
  else if c = '\n' then
    let s1 := storeArg s
    { s1 with inputBuffer := s1.inputBuffer.set i NUL, args := s1.args.set s1.ct none }
  else
    let s1 := if s.start = -1 then { s with start := (i : Int) } else s
    if c = '&' then
      { s1 with background := 1,
                inputBuffer := if i = 0 then s1.inputBuffer else s1.inputBuffer.set (i - 1) NUL }
    else s1

/-- The `for (i = 0; i < length; i++)` loop of `setup`, run for `n` iterations. -/
def setupLoop (s : SetupState) (n : Nat) : SetupState :=
  (List.range n).foldl setupStep s

/-- How a call of `setup` ends: the process has called `exit(code)`, or the call returns with
the buffer, the argument array, `*background` and the global `numberOfArguments`. -/
inductive SetupResult where
  | exited (code : Int)
  | returned (inputBuffer : List Char) (args : List (Option Nat)) (background : Int)
      (numberOfArguments : Nat)
deriving DecidableEq

/-- The function `setup`, given what the buffer, the argument array and `*background` hold when
it is called and what `read` does. -/
def setup (inputBuffer : List Char) (args : List (Option Nat)) (background : Int)
    (rd : ReadResult) : SetupResult :=
  let length := rd.length
  if length = 0 then .exited 0
  else if length < 0 ∧ rd.errno ≠ EINTR then .exited (-1)
  else
    let s := setupLoop { inputBuffer := rd.store inputBuffer, args := args,
                         background := background, start := -1, ct := 0 } length.toNat
    .returned s.inputBuffer (s.args.set s.ct none) s.background s.ct

/-- The exit status a parent observes for `exit(code)`: the low eight bits. -/
def exitStatus (code : Int) : Int := code % 256

/-- The C string at offset `p` of the buffer: the bytes from `p` up to the first NUL.  (If
there is no NUL the string read here stops at the end of the buffer.) -/
def cstr (buf : List Char) (p : Nat) : CStr :=
  (buf.drop p).takeWhile (fun c => c != NUL)

/-- The strings of the argument vector that `setup` returned: the entries of `args` up to the
first NULL, each read as a C string in the buffer. -/
def SetupResult.tokens : SetupResult → List CStr
  | .exited _ => []
  | .returned buf args _ _ => (untilNull args).map (cstr buf)

/-- The value of `*background` after `setup`, when it returns. -/
def SetupResult.backgroundFlag : SetupResult → Option Int
  | .exited _ => none
  | .returned _ _ bg _ => some bg

/-! ### The tokenizer of the specification -/

/-- The token separators within a line: space and tab. -/
def isBlank (c : Char) : Bool := c = ' ' || c = '\t'

/-- The maximal runs of bytes other than space and tab, in input order: the pieces between
separators, the empty ones left out. -/
def wordRuns (l : List Char) : List CStr :=
  (l.splitOnP isBlank).filter (fun w => w ≠ [])

/-- The same runs, computed left to right with the run being read in `cur`. -/
def wordRunsAux : List Char → List Char → List CStr
  | [], cur => if cur = [] then [] else [cur]
  | c :: cs, cur =>
    if isBlank c then (if cur = [] then wordRunsAux cs [] else cur :: wordRunsAux cs [])
    else wordRunsAux cs (cur ++ [c])

/-- A line laid out as leading blanks `g0` followed by words, each with the blanks after it. -/
def layout (g0 : List Char) (ws : List (CStr × List Char)) : List Char :=
  g0 ++ (ws.map (fun wg => wg.1 ++ wg.2)).flatten

/-- The loop invariant of `setup` on a line `body ++ "\n"` without `&` and NUL, after `i`
iterations: the buffer is a processed part `front` followed by the untouched bytes; the filled
entries of `args` are the offsets `P`, each the start of a NUL-terminated string inside `front`;
`cur` is the run being read; the strings stored so far followed by the runs still to come are
the runs of the line; and `ct` tokens need at least `2 * ct` bytes. -/
def SetupInv (body rest : List Char) (bg : Int) (nargs : Nat) (i : Nat) (s : SetupState) : Prop :=
  ∃ (front : List Char) (P : List Nat) (cur : List Char),
    s.inputBuffer = front ++ (body.drop i ++ '\n' :: rest) ∧ front.length = i ∧
    s.background = bg ∧
    s.args.length = nargs ∧ s.args.take s.ct = P.map some ∧ P.length = s.ct ∧
    (∀ p ∈ P, NUL ∈ front.drop p) ∧
    ((s.start = -1 ∧ cur = []) ∨
      (∃ st : Nat, s.start = (st : Int) ∧ st < i ∧ cur = front.drop st ∧ NUL ∉ cur)) ∧
    P.map (cstr front) ++ wordRunsAux (body.drop i) cur = wordRuns body ∧
    2 * s.ct + (if s.start = -1 then 0 else 1) ≤ i

/-- The conditions under which `layout g0 ws` is a line read as the words of `ws`: `g0` and
the gaps are blanks, the words are non-empty and hold no blank, and every word but the last is
followed by at least one blank. -/
def WellLaid (g0 : List Char) (ws : List (CStr × List Char)) : Prop :=
  (∀ c ∈ g0, isBlank c = true) ∧
  (∀ wg ∈ ws, wg.1 ≠ [] ∧ (∀ c ∈ wg.1, isBlank c = false) ∧ (∀ c ∈ wg.2, isBlank c = true)) ∧
  (∀ wg ∈ ws.dropLast, wg.2 ≠ [])

instance (g0 : List Char) (ws : List (CStr × List Char)) : Decidable (WellLaid g0 ws) := by
  unfold WellLaid
  infer_instance

/-- The background marker of the specification: the last byte of the line (the bytes before
the first newline) that is neither space nor tab is `&`. -/
def trailingMarker (line : List Char) : Bool :=
  ((line.takeWhile (fun c => c != '\n')).reverse.dropWhile isBlank).head? = some '&'

/-! ## The dispatcher: main, handleIO, createProcess -/

/-- The three standard streams. -/
inductive Stream where
  | stdin
  | stdout
  | stderr
deriving DecidableEq

/-- The calls of one process that the claims speak of, in the order they are made.  `fork ret`
records that `fork()` was called and returned `ret` in this process (0 in the child).  Strings
are recorded as read at the time of the call; a NULL pointer is `none`.  The `popen` calls of
`findExecutablePath`, each of which starts a process to run `which`, are not among these
events: `mainPopens` lists them. -/
inductive Event where
  | fork (ret : Int)
  | freopen (file : Option CStr) (mode : CStr) (stream : Stream)
  | execv (path : CStr) (argv : List CStr)
  | wait
  | search (argv : List CStr)
  | bookmark (argv : List CStr)
  | notExecutable (name : Option CStr)
  | forkFailed
  | execFailed
  | reallocFailed
  | jobsRunning
  | kill (pid : Int) (sig : Int)
deriving DecidableEq

/-- What the operating system answers during one iteration of the loop of `main`, as seen by
one process: the last line printed by `which <name>` without its newline (`none` when it prints
nothing or `popen` fails), whether `access(path, X_OK)` is 0, the value `fork()` returns in this
process, whether `execv` fails (it returns only then), whether `realloc` returns NULL, whether
`freopen` returns NULL because the file cannot be opened (`handleIO` discards that value). -/
structure Env where
  which : Option CStr → Option CStr
  access : CStr → Bool
  fork : Int
  execvFails : Bool
  reallocFails : Bool
  freopenFails : Bool

/-- The globals of the program together with the locals of `main` that live across
iterations. -/
structure ShellState where
  io : IOGlobals Nat
  numberOfArguments : Nat
  executablePath : CStr
  foregroundProcess : Int
  backgroundProcesses : List Int
  backgroundProcessCount : Nat
  inputBuffer : List Char
  args : List (Option Nat)
  background : Int
deriving DecidableEq

/-- Where control is after a piece of code ran: it goes on (the function returns, the loop of
`main` starts its next iteration) in the given state, the process has called `exit`, its image
has been replaced by a successful `execv`, or the code read outside an array (undefined in C). -/
inductive Flow where
  | next (st : ShellState)
  | exit (code : Int)
  | exec
  | undefined
deriving DecidableEq

/-- Whether control goes on in the loop of `main` of this process. -/
def Flow.goesOn : Flow → Bool
  | .next _ => true
  | _ => false

/-- The state in which control goes on, when it does. -/
def Flow.state? : Flow → Option ShellState
  | .next st => some st
  | _ => none

/-- The constant `EXIT_FAILURE`. -/
def EXIT_FAILURE : Int := 1

/-- The function `findExecutablePath`: the new contents of `executablePath`.  Every line that
`which` prints is copied over it, so the last one stays; without output it keeps its value.
The process that `popen` starts to run the command is listed by `whichCommand` and
`mainPopens`; here only its answer is taken, from the environment. -/
def findExecutablePath (env : Env) (executable : Option CStr) (executablePath : CStr) : CStr :=
  match env.which executable with
  | some p => p
  | none => executablePath

/-- The function `isExecutable`. -/
def isExecutable (env : Env) (path : CStr) : Bool := env.access path

/-- The strings of the argument vector `args`, as `execv` and the built-ins read them. -/
def ShellState.argv (st : ShellState) : List CStr :=
  (untilNull st.args).map (cstr st.inputBuffer)

/-- The function `handleIO`, called with the `args` of the state. -/
def handleIO (env : Env) (st : ShellState) : List Event × Flow :=
  let pid := env.fork
  if pid = 0 then
    let name := (st.args.getD 0 none).map (cstr st.inputBuffer)
    let st1 := { st with executablePath := findExecutablePath env name st.executablePath }
    if ¬ isExecutable env st1.executablePath then
      ([.fork pid, .notExecutable name], .next st1)
    else if st1.io.input = 1 then
      ([.fork pid, .freopen (st1.io.inputFile.map (cstr st1.inputBuffer)) ['r'] .stdin,
        .execv st1.executablePath st1.argv],
       if env.execvFails then .next st1 else .exec)
    else if st1.io.output = 1 then
      ([.fork pid, .freopen (st1.io.outputFile.map (cstr st1.inputBuffer)) ['w'] .stdout,
        .execv st1.executablePath st1.argv],
       if env.execvFails then .next st1 else .exec)
    else if st1.io.append = 1 then
      ([.fork pid, .freopen (st1.io.outputFile.map (cstr st1.inputBuffer)) ['a'] .stdout,
        .execv st1.executablePath st1.argv],
       if env.execvFails then .next st1 else .exec)
    else if st1.io.standardError = 1 then
      ([.fork pid, .freopen (st1.io.outputFile.map (cstr st1.inputBuffer)) ['w'] .stderr],
       .next st1)
    else ([.fork pid], .next st1)
  else if pid < 0 then ([.fork pid, .forkFailed], .next st)
  else ([.fork pid], .next st)

/-- The call `realloc(p, n * sizeof(pid_t))` when it succeeds: the first `n` cells keep their
values, new cells (indeterminate in C) are shown as 0. -/
def reallocPids (p : List Int) (n : Nat) : List Int :=
  p.take n ++ List.replicate (n - p.length) 0

/-- The function `createProcess`, called with the `args` of the state. -/
def createProcess (env : Env) (st : ShellState) (background : Int) : List Event × Flow :=
  let pid := env.fork
  if pid = -1 then ([.fork pid, .forkFailed], .exit EXIT_FAILURE)
  else if pid = 0 then
    if env.execvFails then
      ([.fork pid, .execv st.executablePath st.argv, .execFailed], .exit EXIT_FAILURE)
    else ([.fork pid, .execv st.executablePath st.argv], .exec)
  else if background = 0 then
    ([.fork pid, .wait], .next { st with foregroundProcess := pid })
  else
    let count := st.backgroundProcessCount + 1
    if env.reallocFails then ([.fork pid, .reallocFailed], .exit EXIT_FAILURE)
    else
      ([.fork pid],
       .next { st with backgroundProcessCount := count,
                       backgroundProcesses :=
                         (reallocPids st.backgroundProcesses count).set (count - 1) pid })

/-- Lines 758 to 760 of `main`: `args[numberOfArguments - 1]` is set to NULL when it is the
string `&`.  The result is `none` when the entry read is outside the array or NULL. -/
def dropAmp (buf : List Char) (args : List (Option Nat)) (numberOfArguments : Nat) :
    Option (List (Option Nat)) :=
  if numberOfArguments = 0 then none
  else
    match args.getD (numberOfArguments - 1) none with
    | none => none
    | some p =>
      if cstr buf p = ['&'] then some (args.set (numberOfArguments - 1) none) else some args

/-- One iteration of the `while (1)` loop of `main`: from `background = 0` to the end of the
loop body, given what `read` does in `setup`.  The built-ins `search` and `bookmark` are
recorded as one event each. -/
def mainIteration (env : Env) (st : ShellState) (rd : ReadResult) : List Event × Flow :=
  match setup st.inputBuffer st.args 0 rd with
  | .exited code => ([], .exit code)
  | .returned buf args background n =>
    let st1 := { st with inputBuffer := buf, args := args, background := background,
                         numberOfArguments := n }
    match args with
    | [] => ([], .undefined)
    | none :: _ => ([], .next st1)
    | some p0 :: _ =>
      let st2 := { st1 with executablePath := findExecutablePath env (some (cstr buf p0)) [] }
      match checkIO (cstr buf) args st2.io with
      | none => ([], .undefined)
      | some r =>
        let st3 := { st2 with args := r.args, io := r.g }
        if r.ret = 1 then handleIO env st3
        else if cstr buf p0 = "search".toList then ([.search st3.argv], .next st3)
        else if cstr buf p0 = "bookmark".toList then ([.bookmark st3.argv], .next st3)
        else if cstr buf p0 = "exit".toList then
          if st3.backgroundProcessCount > 0 then ([.jobsRunning], .next st3)
          else ([], .exit 0)
        else if isExecutable env st3.executablePath then
          match dropAmp buf st3.args n with
          | none => ([], .undefined)
          | some args2 => createProcess env { st3 with args := args2 } background
        else ([.notExecutable (some (cstr buf p0))], .next st3)

/-- The command that `findExecutablePath` builds with `sprintf(command, "which %s",
executable)` and hands to `popen`, which starts a process (a shell) to run it.  A NULL
`executable`, undefined for `%s`, is shown as `(null)`, as glibc prints it. -/
def whichCommand (executable : Option CStr) : CStr :=
  "which ".toList ++ executable.getD "(null)".toList

/-- The commands that `handleIO` runs through `popen`: the lookup of line 341, made in the
child only. -/
def handleIOPopens (env : Env) (st : ShellState) : List CStr :=
  if env.fork = 0 then [whichCommand ((st.args.getD 0 none).map (cstr st.inputBuffer))] else []

/-- The commands that one iteration of the loop of `main` runs through `popen`, in order, each
in a process of its own: the lookup of line 742, made on every line with a token before any
test, then those of `handleIO` when `checkIO` returns 1. -/
def mainPopens (env : Env) (st : ShellState) (rd : ReadResult) : List CStr :=
  match setup st.inputBuffer st.args 0 rd with
  | .exited _ => []
  | .returned buf args background n =>
    match args with
    | [] => []
    | none :: _ => []
    | some p0 :: _ =>
      whichCommand (some (cstr buf p0)) ::
        (match checkIO (cstr buf) args st.io with
         | none => []
         | some r =>
           if r.ret = 1 then
             handleIOPopens env
               { st with inputBuffer := buf, args := r.args, background := background,
                         numberOfArguments := n,
                         executablePath := findExecutablePath env (some (cstr buf p0)) [],
                         io := r.g }
           else [])

/-- The strings of the argument vector that `main` hands to `createProcess` after a call of
`setup` that returned: the vector of `setup` with a final `&` entry replaced by NULL. -/
def SetupResult.createArgv : SetupResult → Option (List CStr)
  | .exited _ => none
  | .returned buf args _ n => (dropAmp buf args n).map (fun a => (untilNull a).map (cstr buf))

/-- A fresh state of the shell: no jobs, a buffer of `MAX_LINE` bytes and an argument array of
`MAX_LINE / 2 + 1` entries. -/
def ShellState.initial : ShellState :=
  { io := ⟨0, 0, 0, 0, none, none⟩, numberOfArguments := 0, executablePath := [],
    foregroundProcess := 0, backgroundProcesses := [], backgroundProcessCount := 0,
    inputBuffer := List.replicate MAX_LINE NUL, args := List.replicate (MAX_LINE / 2 + 1) none,
    background := 0 }

/-- An environment in which `which` finds `/bin/<name>` for the names `ls` and `cat` and
nothing else, exactly those two paths are executable, and this process is the one `fork`
returns `pid` in. -/
def Env.sample (pid : Int) : Env :=
  { which := fun name =>
      if name = some "ls".toList then some "/bin/ls".toList
      else if name = some "cat".toList then some "/bin/cat".toList
      else none,
    access := fun path => path = "/bin/ls".toList || path = "/bin/cat".toList,
    fork := pid, execvFails := false, reallocFails := false, freopenFails := false }

/-! ## The job table and the signal handlers -/

/-- The call `memmove(&a[dst], &a[src], n * sizeof(pid_t))` on an array of pids: the `n` cells
from `src` on are copied over the `n` cells from `dst` on. -/
def memmovePids (a : List Int) (dst src n : Nat) : List Int :=
  a.take dst ++ (a.drop src).take n ++ a.drop (dst + n)

/-- The `for (i = 0; i < backgroundProcessCount; i++)` loop of `removeProcess`; the first
number is how many iterations are left (`backgroundProcessCount - i`), the second is `i`.
Reading `backgroundProcesses[i]` outside the array is undefined. -/
def removeProcessLoop (env : Env) (st : ShellState) (pid : Int) : Nat → Nat → Flow
  | 0, _ => .next st
  | k + 1, i =>
    match st.backgroundProcesses[i]? with
    | none => .undefined
    | some p =>
      if p = pid then
        let moved := memmovePids st.backgroundProcesses i (i + 1)
          (st.backgroundProcessCount - i - 1)
        let count := st.backgroundProcessCount - 1
        if env.reallocFails ∧ count > 0 then .exit EXIT_FAILURE
        else .next { st with backgroundProcesses := reallocPids moved count,
                             backgroundProcessCount := count }
      else removeProcessLoop env st pid k (i + 1)

/-- The function `removeProcess`. -/
def removeProcess (env : Env) (st : ShellState) (pid : Int) : Flow :=
  removeProcessLoop env st pid st.backgroundProcessCount 0

/-- The constant `SIGKILL`. -/
def SIGKILL : Int := 9

/-- The function `sigtstpHandler`: the calls it makes and the state it leaves. -/
def sigtstpHandler (st : ShellState) : List Event × ShellState :=
  if st.foregroundProcess > 0 then
    ([.kill (-st.foregroundProcess) SIGKILL], { st with foregroundProcess := 0 })
  else ([], st)

/-- The function `sigchldHandler`, given the pairs (return value, status) of the successive
calls `waitpid(-1, &status, WNOHANG)`; after the last pair of the list `waitpid` returns 0 or
-1.  The macro `WIFEXITED` of the system headers is the parameter `wifexited`. -/
def sigchldHandler (env : Env) (wifexited : Int → Bool) (st : ShellState) :
    List (Int × Int) → Flow
  | [] => .next st
  | (pid, status) :: rest =>
    if pid > 0 then
      if wifexited status then
        match removeProcess env st pid with
        | .next st1 => sigchldHandler env wifexited st1 rest
        | other => other
      else sigchldHandler env wifexited st rest
    else .next st

/-- The calls `removeProcess(pid)` for the pids of a list, one after the other. -/
def reapAll (env : Env) (st : ShellState) : List Int → Flow
  | [] => .next st
  | pid :: rest =>
    match removeProcess env st pid with
    | .next st1 => reapAll env st1 rest
    | other => other

/-- The calls `createProcess(args, 1)` in the parent, `fork` returning the pids of a list one
after the other. -/
def launchAll (env : Env) (st : ShellState) : List Int → Flow
  | [] => .next st
  | pid :: rest =>
    match (createProcess { env with fork := pid } st 1).2 with
    | .next st1 => launchAll env st1 rest
    | other => other

/-! ## The writes of setup -/

/-- The indices of `args` that iteration `i` of the loop of `setup` writes, in order. -/
def stepArgWrites (s : SetupState) (i : Nat) : List Nat :=
  let c := s.inputBuffer.getD i NUL
  if c = ' ' ∨ c = '\t' then (if s.start ≠ -1 then [s.ct] else [])
  else if c = '\n' then (if s.start ≠ -1 then [s.ct, s.ct + 1] else [s.ct])
  else []

/-- The indices of `inputBuffer` that iteration `i` of the loop of `setup` writes. -/
def stepBufWrites (s : SetupState) (i : Nat) : List Int :=
  let c := s.inputBuffer.getD i NUL
  if c = ' ' ∨ c = '\t' then [(i : Int)]
  else if c = '\n' then [(i : Int)]
  else if c = '&' then [(i : Int) - 1]
  else []

/-- The indices of `args` that a call of `setup` writes: those of the loop, then the final
`args[ct] = NULL`. -/
def setupArgWrites (inputBuffer : List Char) (args : List (Option Nat)) (background : Int)
    (rd : ReadResult) : List Nat :=
  let length := rd.length
  if length = 0 then []
  else if length < 0 ∧ rd.errno ≠ EINTR then []
  else
    let s0 : SetupState := { inputBuffer := rd.store inputBuffer, args := args,
                             background := background, start := -1, ct := 0 }
    (List.range length.toNat).flatMap (fun i => stepArgWrites (setupLoop s0 i) i)
      ++ [(setupLoop s0 length.toNat).ct]

/-- The indices of `inputBuffer` that a call of `setup` writes after `read` has filled it. -/
def setupBufWrites (inputBuffer : List Char) (args : List (Option Nat)) (background : Int)
    (rd : ReadResult) : List Int :=
  let length := rd.length
  if length = 0 then []
  else if length < 0 ∧ rd.errno ≠ EINTR then []
  else
    let s0 : SetupState := { inputBuffer := rd.store inputBuffer, args := args,
                             background := background, start := -1, ct := 0 }
    (List.range length.toNat).flatMap (fun i => stepBufWrites (setupLoop s0 i) i)

end Shell

/-!
# The sum-of-square-roots program (Project3)

The definitions below are translated from `src/Project3/Project3.c`: how `main` and
`executeMethod1`, `executeMethod2`, `executeMethod3` cut the range `[a, b]` into the ranges of
the threads.  A `long long int` is an `Int`; the result of an addition, subtraction or
multiplication is taken modulo `2 ^ 64` (signed overflow, undefined in C, wraps around).
-/

namespace SqrtSum

/-- The value of a `long long int` result: the representative of `x` modulo `2 ^ 64` in
`[-2 ^ 63, 2 ^ 63)`. -/
def wrap64 (x : Int) : Int := (x + 2 ^ 63) % 2 ^ 64 - 2 ^ 63

/-- The struct `ThreadParameters`; the field `end` is `stop` here. -/
structure ThreadParameters where
  start : Int
  stop : Int
deriving DecidableEq

/-- The integers that the loop `for (i = start; i <= end; ++i)` of `method1`, `method2` and
`method3` goes through. -/
def ThreadParameters.covers (p : ThreadParameters) (k : Int) : Prop :=
  p.start ≤ k ∧ k ≤ p.stop

instance (p : ThreadParameters) (k : Int) : Decidable (p.covers k) := by
  unfold ThreadParameters.covers
  infer_instance

/-- Line 222 of `main`: `rangePerThread = (b - a) / numberOfThreads`, the division of C
(towards zero).  The trap of the division (by zero, or `LLONG_MIN / -1`) is not part of this
value; the theorems below take `numberOfThreads ≥ 1`. -/
def rangePerThread (a b numberOfThreads : Int) : Int :=
  (wrap64 (b - a)).tdiv numberOfThreads

/-- The body of the first loop of `executeMethod1` (and 2 and 3) at index `i`: the value of
`threadArgs[i]`. -/
def threadArgs (a b numberOfThreads rangePerThread : Int) (i : Nat) : ThreadParameters :=
  { start := wrap64 (a + wrap64 ((i : Int) * rangePerThread)),
    stop := if (i : Int) = numberOfThreads - 1 then b
            else wrap64 (wrap64 (a + wrap64 (((i : Int) + 1) * rangePerThread)) - 1) }

/-- The ranges that `executeMethod1` hands to its threads, thread 0 first. -/
def executeMethod1 (a b numberOfThreads rangePerThread : Int) : List ThreadParameters :=
  (List.range numberOfThreads.toNat).map (threadArgs a b numberOfThreads rangePerThread)

/-- The ranges that `executeMethod2` hands to its threads, thread 0 first. -/
def executeMethod2 (a b numberOfThreads rangePerThread : Int) : List ThreadParameters :=
  (List.range numberOfThreads.toNat).map (threadArgs a b numberOfThreads rangePerThread)

/-- The ranges that `executeMethod3` hands to its threads, thread 0 first. -/
def executeMethod3 (a b numberOfThreads rangePerThread : Int) : List ThreadParameters :=
  (List.range numberOfThreads.toNat).map (threadArgs a b numberOfThreads rangePerThread)

/-- The function `main` after the parsing of its arguments `a`, `b`, `c` (threads) and `d`
(method): the ranges of the threads it starts; `none` when it starts none (division by zero,
invalid method number). -/
def main (a b c d : Int) : Option (List ThreadParameters) :=
  if c = 0 then none
  else if d = 1 then some (executeMethod1 a b c (rangePerThread a b c))
  else if d = 2 then some (executeMethod2 a b c (rangePerThread a b c))
  else if d = 3 then some (executeMethod3 a b c (rangePerThread a b c))
  else none

end SqrtSum

namespace Shell

/-! ## Theorems -/

theorem untilNull_map_some_append {α : Type} (pre : List α) (rest : List (Option α)) :
    untilNull (pre.map some ++ rest) = pre ++ untilNull rest := by
  induction pre with
  | nil => rfl
  | cons a pre ih => simp [untilNull, ih]

theorem checkIOLoop_skip {α : Type} (str : α → CStr) (args : List (Option α)) (g : IOGlobals α)
    (pre : List α) (hpre : ∀ t ∈ pre, isRedirOp (str t) = false)
    (x : Option α) (rest : List (Option α)) (i : Nat) :
    checkIOLoop str args g (pre.map some ++ x :: rest) i
      = checkIOLoop str args g (x :: rest) (i + pre.length) := by
  induction pre generalizing i with
  | nil => rfl
  | cons a pre ih =>
    have ha : isRedirOp (str a) = false := hpre a (List.mem_cons_self _ _)
    have hrest : ∀ t ∈ pre, isRedirOp (str t) = false :=
      fun t ht => hpre t (List.mem_cons_of_mem _ ht)
    simp only [isRedirOp, Bool.or_eq_false_iff, decide_eq_false_iff_not] at ha
    obtain ⟨⟨⟨h1, h2⟩, h3⟩, h4⟩ := ha
    have hne : ∃ y ys, pre.map some ++ x :: rest = y :: ys := by
      cases pre with
      | nil => exact ⟨x, rest, rfl⟩
      | cons b bs => exact ⟨some b, bs.map some ++ x :: rest, rfl⟩
    obtain ⟨y, ys, hy⟩ := hne
    have step : checkIOLoop str args g (some a :: (pre.map some ++ x :: rest)) i
        = checkIOLoop str args g (pre.map some ++ x :: rest) (i + 1) := by
      rw [hy]
      simp only [checkIOLoop, h1, h2, h3, h4, if_false]
    simp only [List.map_cons, List.cons_append, List.length_cons]
    rw [step, ih hrest (i + 1)]
    congr 1
    omega

theorem checkIO_at_operator {α : Type} (str : α → CStr) (g : IOGlobals α)
    (pre : List α) (a : α) (post : List α) (junk : List (Option α))
    (hpre : ∀ t ∈ pre, isRedirOp (str t) = false) (hop : isRedirOp (str a) = true) :
    ∃ r, checkIO str ((pre ++ a :: post).map some ++ none :: junk) g = some r ∧ r.ret = 1 ∧
      r.g.flags = opFlags (str a) ∧ r.g.target = post.head? ∧
      r.args = ((pre ++ a :: post).map some ++ none :: junk).set pre.length none ∧
      untilNull r.args = pre := by
  obtain ⟨y, ys, hy⟩ : ∃ y ys, post.map some ++ none :: junk = y :: ys ∧ y = post.head? := by
    cases post with
    | nil => exact ⟨none, junk, rfl, rfl⟩
    | cons b bs => exact ⟨some b, bs.map some ++ none :: junk, rfl, rfl⟩
  have hset : ((pre ++ a :: post).map some ++ none :: junk).set pre.length none
      = pre.map some ++ none :: (post.map some ++ none :: junk) := by
    have hlen : pre.length = (pre.map some).length := by simp
    simp only [List.map_append, List.map_cons, List.append_assoc, List.cons_append]
    rw [hlen, List.set_append_right _ _ (le_refl _)]
    simp
  have hun : untilNull (((pre ++ a :: post).map some ++ none :: junk).set pre.length none)
      = pre := by
    rw [hset, untilNull_map_some_append]
    simp [untilNull]
  have hloop : checkIO str ((pre ++ a :: post).map some ++ none :: junk) g
      = checkIOLoop str ((pre ++ a :: post).map some ++ none :: junk)
          { g with input := 0, output := 0, append := 0, standardError := 0 }
          (some a :: (post.map some ++ none :: junk)) pre.length := by
    unfold checkIO
    have h := checkIOLoop_skip str ((pre ++ a :: post).map some ++ none :: junk)
      { g with input := 0, output := 0, append := 0, standardError := 0 } pre hpre
      (some a) (post.map some ++ none :: junk) 0
    simp only [Nat.zero_add] at h
    rw [← h]
    simp
  rw [hloop, hy.1]
  simp only [isRedirOp, Bool.or_eq_true, decide_eq_true_eq] at hop
  simp only [checkIOLoop]
  by_cases h1 : str a = ['<']
  · refine ⟨_, by rw [if_pos h1], rfl, ?_, ?_, rfl, hun⟩
    · simp [IOGlobals.flags, opFlags, h1]
    · simp [IOGlobals.target, hy.2]
  rw [if_neg h1]
  by_cases h2 : str a = ['>']
  · refine ⟨_, by rw [if_pos h2], rfl, ?_, ?_, rfl, hun⟩
    · simp [IOGlobals.flags, opFlags, h2]
    · simp [IOGlobals.target, hy.2]
  rw [if_neg h2]
  by_cases h3 : str a = ['>', '>']
  · refine ⟨_, by rw [if_pos h3], rfl, ?_, ?_, rfl, hun⟩
    · simp [IOGlobals.flags, opFlags, h3]
    · simp [IOGlobals.target, hy.2]
  rw [if_neg h3]
  by_cases h4 : str a = ['2', '>']
  · refine ⟨_, by rw [if_pos h4], rfl, ?_, ?_, rfl, hun⟩
    · simp [IOGlobals.flags, opFlags, h4]
    · simp [IOGlobals.target, hy.2]
  · simp [h1, h2, h3, h4] at hop

theorem checkIO_no_operator {α : Type} (str : α → CStr) (g : IOGlobals α)
    (toks : List α) (junk : List (Option α))
    (hno : ∀ t ∈ toks, isRedirOp (str t) = false) :
    checkIO str (toks.map some ++ none :: junk) g
      = some { ret := 0, args := toks.map some ++ none :: junk,
               g := { g with input := 0, output := 0, append := 0, standardError := 0 } } := by
  unfold checkIO
  have h := checkIOLoop_skip str (toks.map some ++ none :: junk)
    { g with input := 0, output := 0, append := 0, standardError := 0 } toks hno none junk 0
  rw [h]
  rfl

/-- The decomposition of a token list at the least index that holds an operator. -/
theorem split_at_least_index {α : Type} (P : α → Bool) (toks : List α) (i : Nat) (a : α)
    (hi : toks[i]? = some a)
    (hmin : ∀ j b, j < i → toks[j]? = some b → P b = false) :
    toks = toks.take i ++ a :: toks.drop (i + 1) ∧ (toks.take i).length = i ∧
      ∀ t ∈ toks.take i, P t = false := by
  have hlt : i < toks.length := by
    by_contra hge
    rw [List.getElem?_eq_none (by omega)] at hi
    cases hi
  have hget : toks[i] = a := by
    rw [List.getElem?_eq_getElem hlt] at hi
    exact Option.some.inj hi
  refine ⟨?_, by simp [List.length_take]; omega, ?_⟩
  · conv_lhs => rw [← List.take_append_drop i toks]
    rw [List.drop_eq_getElem_cons hlt, hget]
  · intro t ht
    obtain ⟨j, hj, hjt⟩ := List.getElem_of_mem ht
    have hj2 : j < i := by
      have := hj
      rw [List.length_take] at this
      omega
    apply hmin j _ hj2
    rw [← hjt, List.getElem_take, List.getElem?_eq_getElem]

/-- C1: `checkIO` is the first-operator-wins scan.  For every NULL-terminated argument vector
(tokens `toks`, then NULL, then whatever the array holds after it): if `i` is the least index
whose token is one of `<`, `>`, `>>`, `2>`, then `checkIO` returns 1, the matching flag is 1 and
the other three are 0, the target file name is `args[i + 1]`, `args[i]` has become NULL, and the
vector read up to its first NULL is the prefix `args[0..i)`; if no token is an operator,
`checkIO` returns 0, the four flags are 0 and the array is unchanged. -/
theorem checkIO_first_operator_wins {α : Type} (str : α → CStr) (g : IOGlobals α)
    (toks : List α) (junk : List (Option α)) :
    (∀ i a, toks[i]? = some a → isRedirOp (str a) = true →
        (∀ j b, j < i → toks[j]? = some b → isRedirOp (str b) = false) →
        ∃ r, checkIO str (toks.map some ++ none :: junk) g = some r ∧ r.ret = 1 ∧
          r.g.flags = opFlags (str a) ∧
          (toks.map some ++ none :: junk)[i + 1]? = some r.g.target ∧
          r.args = (toks.map some ++ none :: junk).set i none ∧
          untilNull r.args = toks.take i) ∧
    ((∀ t ∈ toks, isRedirOp (str t) = false) →
        checkIO str (toks.map some ++ none :: junk) g
          = some { ret := 0, args := toks.map some ++ none :: junk,
                   g := { g with input := 0, output := 0, append := 0, standardError := 0 } }) := by
  refine ⟨?_, checkIO_no_operator str g toks junk⟩
  intro i a hi hop hmin
  obtain ⟨hsplit, hlen, hpre⟩ := split_at_least_index (fun t => isRedirOp (str t)) toks i a hi hmin
  obtain ⟨r, hr, hret, hflags, htarget, hargs, hun⟩ :=
    checkIO_at_operator str g (toks.take i) a (toks.drop (i + 1)) junk hpre hop
  rw [← hsplit] at hr hargs
  rw [hlen] at hargs
  refine ⟨r, hr, hret, hflags, ?_, hargs, hun⟩
  rw [htarget]
  have hlt : i < toks.length := by
    by_contra hge
    rw [List.getElem?_eq_none (by omega)] at hi
    cases hi
  by_cases hlast : i + 1 < toks.length
  · rw [List.getElem?_append_left (by simpa using hlast)]
    simp only [List.head?_drop, List.getElem?_map, List.getElem?_eq_getElem hlast, Option.map_some']
  · have hlen2 : (toks.map some).length ≤ i + 1 := by simp; omega
    rw [List.getElem?_append_right hlen2]
    have h0 : i + 1 - (toks.map some).length = 0 := by simp; omega
    rw [h0]
    simp [List.head?_drop]
    omega

/-- C1 at the vector `[ls, -l, >, out.txt]`: the result is `[ls, -l]`, `output = 1`, target
`out.txt`. -/
theorem checkIO_first_operator_wins_witness :
    (∃ r, checkIO id (["ls".toList, "-l".toList, ">".toList, "out.txt".toList].map some
            ++ none :: []) ⟨0, 0, 0, 0, none, none⟩ = some r ∧ r.ret = 1 ∧
          r.g.flags = (0, 1, 0, 0) ∧
          (["ls".toList, "-l".toList, ">".toList, "out.txt".toList].map some
            ++ none :: [])[2 + 1]? = some r.g.target ∧
          r.g.target = some "out.txt".toList ∧
          r.args = [some "ls".toList, some "-l".toList, none, some "out.txt".toList, none] ∧
          untilNull r.args = ["ls".toList, "-l".toList]) ∧
    checkIO id (["ls".toList, "-l".toList].map some ++ none :: [])
        ⟨1, 1, 1, 1, none, some "x".toList⟩
      = some { ret := 0, args := [some "ls".toList, some "-l".toList, none],
               g := ⟨0, 0, 0, 0, none, some "x".toList⟩ } := by
  have h := checkIO_first_operator_wins id (⟨0, 0, 0, 0, none, none⟩ : IOGlobals CStr)
    ["ls".toList, "-l".toList, ">".toList, "out.txt".toList] []
  have hmin : ∀ j b, j < 2 → ["ls".toList, "-l".toList, ">".toList, "out.txt".toList][j]? = some b →
      isRedirOp (id b) = false := by
    intro j b hj hb
    have hj2 : j = 0 ∨ j = 1 := by omega
    rcases hj2 with rfl | rfl
    · have hb2 : "ls".toList = b := by simpa using hb
      rw [← hb2]; decide
    · have hb2 : "-l".toList = b := by simpa using hb
      rw [← hb2]; decide
  obtain ⟨r, h1, h2, h3, h4, h5, h6⟩ := h.1 2 ">".toList (by decide) (by decide) hmin
  refine ⟨⟨r, h1, h2, ?_, h4, ?_, ?_, ?_⟩, ?_⟩
  · rw [h3]; decide
  · have : some r.g.target = some (some "out.txt".toList) := by rw [← h4]; decide
    exact Option.some.inj this
  · rw [h5]; decide
  · rw [h6]; decide
  · exact (checkIO_first_operator_wins id (⟨1, 1, 1, 1, none, some "x".toList⟩ : IOGlobals CStr)
      ["ls".toList, "-l".toList] []).2 (by decide)

/-! ### Lists -/

theorem takeWhile_append_of_exists {α : Type} (q : α → Bool) (l m : List α)
    (h : ∃ a ∈ l, q a = false) : (l ++ m).takeWhile q = l.takeWhile q := by
  induction l with
  | nil => obtain ⟨a, ha, _⟩ := h; cases ha
  | cons x xs ih =>
    rw [List.cons_append, List.takeWhile_cons, List.takeWhile_cons]
    cases hx : q x with
    | false => rfl
    | true =>
      obtain ⟨a, ha, hqa⟩ := h
      rcases List.mem_cons.mp ha with h1 | h1
      · rw [h1, hx] at hqa; cases hqa
      · simp only [if_true]; rw [ih ⟨a, h1, hqa⟩]

theorem takeWhile_append_stop {α : Type} (q : α → Bool) (l m : List α) (x : α)
    (hl : ∀ a ∈ l, q a = true) (hx : q x = false) : (l ++ x :: m).takeWhile q = l := by
  induction l with
  | nil => rw [List.nil_append, List.takeWhile_cons, hx]; rfl
  | cons y ys ih =>
    rw [List.cons_append, List.takeWhile_cons, hl y (List.mem_cons_self _ _)]
    simp only [if_true]
    rw [ih (fun a ha => hl a (List.mem_cons_of_mem _ ha))]

theorem takeWhile_append_of_mem_nul (l m : List Char) (h : NUL ∈ l) :
    (l ++ m).takeWhile (fun c => c != NUL) = l.takeWhile (fun c => c != NUL) :=
  takeWhile_append_of_exists _ l m ⟨NUL, h, by simp⟩

theorem takeWhile_append_nul (l m : List Char) (h : NUL ∉ l) :
    (l ++ NUL :: m).takeWhile (fun c => c != NUL) = l :=
  takeWhile_append_stop _ l m NUL
    (fun a ha => by
      have : a ≠ NUL := fun e => h (e ▸ ha)
      simpa using this)
    (by simp)

theorem le_length_of_mem_drop {α : Type} (l : List α) (p : Nat) (a : α) (h : a ∈ l.drop p) :
    p ≤ l.length := by
  by_contra hlt
  rw [List.drop_eq_nil_of_le (by omega)] at h
  cases h

theorem cstr_append (front m : List Char) (p : Nat) (h : NUL ∈ front.drop p) :
    cstr (front ++ m) p = cstr front p := by
  unfold cstr
  rw [List.drop_append_of_le_length (le_length_of_mem_drop front p NUL h)]
  exact takeWhile_append_of_mem_nul _ _ h

theorem mem_drop_append {α : Type} (front m : List α) (p : Nat) (a : α) (h : a ∈ front.drop p) :
    a ∈ (front ++ m).drop p := by
  rw [List.drop_append_of_le_length (le_length_of_mem_drop front p a h)]
  exact List.mem_append_left _ h

theorem getD_append_length {α : Type} (front back : List α) (c d : α) :
    (front ++ c :: back).getD front.length d = c := by
  rw [List.getD_eq_getElem?_getD, List.getElem?_append_right (le_refl _)]
  simp

theorem set_append_length {α : Type} (front back : List α) (c x : α) :
    (front ++ c :: back).set front.length x = front ++ x :: back := by
  rw [List.set_append_right _ _ (le_refl _)]
  simp

theorem take_set_succ {α : Type} (l : List α) (n : Nat) (x : α) (pre : List α)
    (hn : n < l.length) (hpre : l.take n = pre) :
    (l.set n x).take (n + 1) = pre ++ [x] := by
  have hlen : n < (l.set n x).length := by simpa using hn
  rw [List.take_succ, List.getElem?_eq_getElem hlen, List.getElem_set_self, List.set_take,
    hpre, List.set_eq_of_length_le (by rw [← hpre, List.length_take]; omega)]
  rfl

theorem setupLoop_succ (s : SetupState) (n : Nat) :
    setupLoop s (n + 1) = setupStep (setupLoop s n) n := by
  simp [setupLoop, List.range_succ, List.foldl_append]

/-! ### The loop invariant of setup -/

theorem map_cstr_append (front m : List Char) (P : List Nat)
    (hnul : ∀ p ∈ P, NUL ∈ front.drop p) : P.map (cstr (front ++ m)) = P.map (cstr front) :=
  List.map_congr_left (fun p hp => cstr_append front m p (hnul p hp))

theorem natCast_ne_neg_one (n : Nat) : ¬ ((n : Int) = -1) := by
  omega

theorem setupInv_step (body rest : List Char) (bg : Int) (nargs i : Nat) (s : SetupState)
    (hbody : ∀ c ∈ body, c ≠ '\n' ∧ c ≠ '&' ∧ c ≠ NUL)
    (hcap : body.length + 2 ≤ 2 * nargs)
    (hi : i < body.length) (h : SetupInv body rest bg nargs i s) :
    SetupInv body rest bg nargs (i + 1) (setupStep s i) := by
  obtain ⟨front, P, cur, hbuf, hfl, hbg, hal, htake, hPl, hnul, hstart, htok, hcnt⟩ := h
  have hdrop : body.drop i = body[i] :: body.drop (i + 1) := List.drop_eq_getElem_cons hi
  obtain ⟨c, hc⟩ : ∃ c, body[i] = c := ⟨_, rfl⟩
  have hcmem : c ∈ body := hc ▸ List.getElem_mem _
  obtain ⟨hc1, hc2, hc3⟩ := hbody c hcmem
  rw [hdrop, hc] at hbuf htok
  rw [List.cons_append] at hbuf
  have hget : s.inputBuffer.getD i NUL = c := by
    rw [hbuf, ← hfl]
    exact getD_append_length _ _ _ _
  have hsetN : s.inputBuffer.set i NUL
      = (front ++ [NUL]) ++ (body.drop (i + 1) ++ '\n' :: rest) := by
    rw [hbuf, ← hfl, set_append_length]
    simp
  have hsame : s.inputBuffer = (front ++ [c]) ++ (body.drop (i + 1) ++ '\n' :: rest) := by
    rw [hbuf]
    simp
  have hnul2 : ∀ (x : Char), ∀ p ∈ P, NUL ∈ (front ++ [x]).drop p :=
    fun x p hp => mem_drop_append front [x] p NUL (hnul p hp)
  by_cases hblank : c = ' ' ∨ c = '\t'
  · have hb : isBlank c = true := by
      simp only [isBlank, Bool.or_eq_true, decide_eq_true_eq]
      exact hblank
    rcases hstart with ⟨hs, hcur⟩ | ⟨st, hs, hst, hcur, hnn⟩
    · refine ⟨front ++ [NUL], P, [], ?_, ?_, ?_, ?_, ?_, ?_, hnul2 NUL, Or.inl ⟨?_, rfl⟩, ?_, ?_⟩
      · simp only [setupStep, hget, hblank, if_true, storeArg, hs]
        simpa using hsetN
      · simp [hfl]
      · simp only [setupStep, hget, hblank, if_true, storeArg, hs]
        simpa using hbg
      · simp only [setupStep, hget, hblank, if_true, storeArg, hs]
        simpa using hal
      · simp only [setupStep, hget, hblank, if_true, storeArg, hs]
        simpa using htake
      · simp only [setupStep, hget, hblank, if_true, storeArg, hs]
        simpa using hPl
      · simp only [setupStep, hget, hblank, if_true, storeArg, hs]
      · rw [map_cstr_append front [NUL] P hnul, ← htok, hcur]
        simp [wordRunsAux, hb]
      · simp only [setupStep, hget, hblank, if_true, storeArg, hs]
        simp only [hs, if_true] at hcnt
        simp
        omega
    · have hne : (s.start ≠ -1) = True := by
        rw [hs]
        simp only [ne_eq, natCast_ne_neg_one, not_false_eq_true]
      rw [hs, if_neg (natCast_ne_neg_one st)] at hcnt
      have hct : s.ct < s.args.length := by
        omega
      have hcurne : cur ≠ [] := by
        rw [hcur]
        intro e
        have := List.drop_eq_nil_iff.mp e
        omega
      have hstle : st ≤ front.length := by omega
      refine ⟨front ++ [NUL], P ++ [st], [], ?_, ?_, ?_, ?_, ?_, ?_, ?_, Or.inl ⟨?_, rfl⟩, ?_, ?_⟩
      · simp only [setupStep, hget, hblank, if_true, storeArg, hne]
        simpa using hsetN
      · simp [hfl]
      · simp only [setupStep, hget, hblank, if_true, storeArg, hne]
        simpa using hbg
      · simp only [setupStep, hget, hblank, if_true, storeArg, hne]
        simpa using hal
      · simp only [setupStep, hget, hblank, if_true, storeArg, hne]
        simp only [hs, Int.toNat_ofNat, List.map_append, List.map_cons, List.map_nil]
        exact take_set_succ _ _ _ _ hct htake
      · simp only [setupStep, hget, hblank, if_true, storeArg, hne]
        simp [hPl]
      · intro p hp
        rcases List.mem_append.mp hp with hp1 | hp1
        · exact hnul2 NUL p hp1
        · have hp2 : p = st := by simpa using hp1
          rw [hp2, List.drop_append_of_le_length hstle]
          simp
      · simp only [setupStep, hget, hblank, if_true, storeArg, hne]
      · rw [List.map_append, map_cstr_append front [NUL] P hnul, ← htok]
        have hnew : cstr (front ++ [NUL]) st = cur := by
          unfold cstr
          rw [List.drop_append_of_le_length hstle, ← hcur]
          exact takeWhile_append_nul cur [] hnn
        simp [wordRunsAux, hb, hcurne, hnew]
      · simp only [setupStep, hget, hblank, if_true, storeArg, hne]
        simp
        omega
  · have hnb : isBlank c = false := by
      simp only [isBlank, Bool.or_eq_false_iff, decide_eq_false_iff_not]
      exact not_or.mp hblank
    have hstep : setupStep s i = if s.start = -1 then { s with start := (i : Int) } else s := by
      simp only [setupStep, hget, hblank, hc1, hc2, if_false]
    rw [hstep]
    rcases hstart with ⟨hs, hcur⟩ | ⟨st, hs, hst, hcur, hnn⟩
    · rw [if_pos hs]
      refine ⟨front ++ [c], P, [c], hsame, by simp [hfl], hbg, hal, htake, hPl, hnul2 c,
        Or.inr ⟨i, rfl, by omega, ?_, ?_⟩, ?_, ?_⟩
      · rw [← hfl]
        simp
      · simp only [List.mem_singleton]
        exact fun e => hc3 e.symm
      · rw [map_cstr_append front [c] P hnul, ← htok, hcur]
        simp [wordRunsAux, hnb]
      · simp only [hs, if_true] at hcnt
        simp only [natCast_ne_neg_one, if_false]
        omega
    · have hne : ¬ s.start = -1 := by
        rw [hs]
        exact natCast_ne_neg_one st
      rw [if_neg hne]
      have hstle : st ≤ front.length := by omega
      refine ⟨front ++ [c], P, cur ++ [c], hsame, by simp [hfl], hbg, hal, htake, hPl, hnul2 c,
        Or.inr ⟨st, hs, by omega, ?_, ?_⟩, ?_, ?_⟩
      · rw [List.drop_append_of_le_length hstle, hcur]
      · intro hm
        rcases List.mem_append.mp hm with h1 | h1
        · exact hnn h1
        · exact hc3 (List.mem_singleton.mp h1).symm
      · rw [map_cstr_append front [c] P hnul, ← htok]
        simp [wordRunsAux, hnb]
      · rw [if_neg hne] at hcnt ⊢
        omega

theorem modifyHead_nil_append {α : Type} (l : List (List α)) :
    l.modifyHead (fun w => [] ++ w) = l := by
  cases l <;> simp [List.modifyHead]

theorem wordRunsAux_eq (l cur : List Char) :
    wordRunsAux l cur
      = ((l.splitOnP isBlank).modifyHead (fun w => cur ++ w)).filter (fun w => w ≠ []) := by
  induction l generalizing cur with
  | nil =>
    by_cases h : cur = [] <;> simp [wordRunsAux, List.modifyHead, h]
  | cons c cs ih =>
    rw [List.splitOnP_cons]
    by_cases hb : isBlank c = true
    · have hcs := ih []
      rw [modifyHead_nil_append] at hcs
      by_cases h : cur = []
      · simp [wordRunsAux, hb, List.modifyHead, h, hcs]
      · simp [wordRunsAux, hb, List.modifyHead, h, hcs]
    · have hb2 : isBlank c = false := by simpa using hb
      simp only [wordRunsAux, hb2, if_false, ih, List.modifyHead_modifyHead, Bool.false_eq_true]
      congr 2
      funext w
      simp

theorem wordRunsAux_nil_eq (l : List Char) : wordRunsAux l [] = wordRuns l := by
  rw [wordRunsAux_eq]
  unfold wordRuns
  congr 1
  cases l.splitOnP isBlank <;> simp [List.modifyHead]

theorem setupInv_init (body buf0 : List Char) (args0 : List (Option Nat)) (bg : Int) :
    SetupInv body (buf0.drop (body ++ ['\n']).length) bg args0.length 0
      { inputBuffer := ReadResult.store buf0 (.bytes (body ++ ['\n'])), args := args0,
        background := bg, start := -1, ct := 0 } := by
  refine ⟨[], [], [], ?_, rfl, rfl, rfl, rfl, rfl, ?_, Or.inl ⟨rfl, rfl⟩, ?_, ?_⟩
  · simp [ReadResult.store]
  · intro p hp
    cases hp
  · simp [wordRunsAux_nil_eq]
  · simp

theorem setupInv_loop (body rest : List Char) (bg : Int) (nargs : Nat) (s : SetupState)
    (hbody : ∀ c ∈ body, c ≠ '\n' ∧ c ≠ '&' ∧ c ≠ NUL)
    (hcap : body.length + 2 ≤ 2 * nargs)
    (h0 : SetupInv body rest bg nargs 0 s) (i : Nat) (hi : i ≤ body.length) :
    SetupInv body rest bg nargs i (setupLoop s i) := by
  induction i with
  | zero => simpa [setupLoop] using h0
  | succ k ih =>
    rw [setupLoop_succ]
    exact setupInv_step body rest bg nargs k _ hbody hcap (by omega) (ih (by omega))

theorem untilNull_set_of_take {α : Type} (l : List (Option α)) (n : Nat) (P : List α)
    (hn : n < l.length) (htake : l.take n = P.map some) :
    untilNull (l.set n none) = P := by
  rw [List.set_eq_take_append_cons_drop, if_pos hn, htake, untilNull_map_some_append]
  simp [untilNull]

/-- The last iteration, on the newline that ends the line, and what `setup` then returns. -/
theorem setupInv_final (body rest : List Char) (bg : Int) (nargs : Nat) (s : SetupState)
    (hcap : body.length + 2 ≤ 2 * nargs)
    (h : SetupInv body rest bg nargs body.length s) :
    ∃ front P, (setupStep s body.length).inputBuffer = front ++ rest ∧
      (setupStep s body.length).background = bg ∧
      (setupStep s body.length).ct = P.length ∧
      P.length < nargs ∧
      ((setupStep s body.length).args.set (setupStep s body.length).ct none).length = nargs ∧
      untilNull ((setupStep s body.length).args.set (setupStep s body.length).ct none) = P ∧
      P.map (cstr (front ++ rest)) = wordRuns body := by
  obtain ⟨front, P, cur, hbuf, hfl, hbg, hal, htake, hPl, hnul, hstart, htok, hcnt⟩ := h
  rw [List.drop_length, List.nil_append] at hbuf
  simp only [List.drop_length, wordRunsAux] at htok
  have hget : s.inputBuffer.getD body.length NUL = '\n' := by
    rw [hbuf, ← hfl]
    exact getD_append_length _ _ _ _
  have hsetN : s.inputBuffer.set body.length NUL = (front ++ [NUL]) ++ rest := by
    rw [hbuf, ← hfl, set_append_length]
    simp
  have hnl : ¬ ('\n' = ' ' ∨ '\n' = '\t') := by decide
  have hnul2 : ∀ p ∈ P, NUL ∈ (front ++ [NUL]).drop p :=
    fun p hp => mem_drop_append front [NUL] p NUL (hnul p hp)
  rcases hstart with ⟨hs, hcur⟩ | ⟨st, hs, hst, hcur, hnn⟩
  · rw [if_pos hs] at hcnt
    have hct : s.ct < s.args.length := by omega
    have hstep : setupStep s body.length
        = { s with inputBuffer := s.inputBuffer.set body.length NUL,
                   args := s.args.set s.ct none } := by
      simp only [setupStep, hget, hnl, if_true, if_false, storeArg, hs]
      simp [hs]
    rw [hstep]
    refine ⟨front ++ [NUL], P, hsetN, hbg, hPl.symm, by omega, by simp [hal], ?_, ?_⟩
    · simp only [List.set_set]
      exact untilNull_set_of_take _ _ _ hct htake
    · rw [map_cstr_append (front ++ [NUL]) rest P hnul2, map_cstr_append front [NUL] P hnul,
        ← htok, hcur]
      simp
  · have hne : (s.start ≠ -1) = True := by
      rw [hs]
      simp only [ne_eq, natCast_ne_neg_one, not_false_eq_true]
    rw [hs, if_neg (natCast_ne_neg_one st)] at hcnt
    have hct : s.ct < s.args.length := by omega
    have hcurne : cur ≠ [] := by
      rw [hcur]
      intro e
      have := List.drop_eq_nil_iff.mp e
      omega
    have hstle : st ≤ front.length := by omega
    have hstep : setupStep s body.length
        = { s with inputBuffer := s.inputBuffer.set body.length NUL,
                   args := (s.args.set s.ct (some st)).set (s.ct + 1) none,
                   ct := s.ct + 1 } := by
      simp only [setupStep, hget, hnl, if_true, if_false, storeArg, hne]
      simp [hs]
    have htake2 : (s.args.set s.ct (some st)).take (s.ct + 1) = (P ++ [st]).map some := by
      simp only [List.map_append, List.map_cons, List.map_nil]
      exact take_set_succ _ _ _ _ hct htake
    have hnul3 : ∀ p ∈ P ++ [st], NUL ∈ (front ++ [NUL]).drop p := by
      intro p hp
      rcases List.mem_append.mp hp with hp1 | hp1
      · exact hnul2 p hp1
      · have hp2 : p = st := by simpa using hp1
        rw [hp2, List.drop_append_of_le_length hstle]
        simp
    rw [hstep]
    refine ⟨front ++ [NUL], P ++ [st], hsetN, hbg, by simp [hPl], by simp; omega,
      by simp [hal], ?_, ?_⟩
    · simp only [List.set_set]
      exact untilNull_set_of_take _ _ _ (by simp; omega) htake2
    · rw [map_cstr_append (front ++ [NUL]) rest (P ++ [st]) hnul3, List.map_append,
        map_cstr_append front [NUL] P hnul, ← htok]
      have hnew : cstr (front ++ [NUL]) st = cur := by
        unfold cstr
        rw [List.drop_append_of_le_length hstle, ← hcur]
        exact takeWhile_append_nul cur [] hnn
      simp [hcurne, hnew]

/-! ### The runs of a laid-out line -/

theorem wordRunsAux_word (w rest cur : List Char) (hw : ∀ c ∈ w, isBlank c = false) :
    wordRunsAux (w ++ rest) cur = wordRunsAux rest (cur ++ w) := by
  induction w generalizing cur with
  | nil => simp
  | cons c cs ih =>
    have hc : isBlank c = false := hw c (List.mem_cons_self _ _)
    rw [List.cons_append, wordRunsAux]
    simp only [hc, Bool.false_eq_true, if_false]
    rw [ih _ (fun d hd => hw d (List.mem_cons_of_mem _ hd))]
    simp

theorem wordRunsAux_blanks (g rest : List Char) (hg : ∀ c ∈ g, isBlank c = true) :
    wordRunsAux (g ++ rest) [] = wordRunsAux rest [] := by
  induction g with
  | nil => simp
  | cons c cs ih =>
    have hc : isBlank c = true := hg c (List.mem_cons_self _ _)
    rw [List.cons_append, wordRunsAux]
    simp only [hc, if_true]
    exact ih (fun d hd => hg d (List.mem_cons_of_mem _ hd))

theorem wordRunsAux_gap (g rest cur : List Char) (hg : ∀ c ∈ g, isBlank c = true)
    (hne : g ≠ []) (hcur : cur ≠ []) :
    wordRunsAux (g ++ rest) cur = cur :: wordRunsAux rest [] := by
  cases g with
  | nil => exact absurd rfl hne
  | cons c cs =>
    have hc : isBlank c = true := hg c (List.mem_cons_self _ _)
    rw [List.cons_append, wordRunsAux]
    simp only [hc, if_true, hcur, if_false]
    rw [wordRunsAux_blanks cs rest (fun d hd => hg d (List.mem_cons_of_mem _ hd))]

theorem wordRunsAux_words (ws : List (CStr × List Char))
    (hws : ∀ wg ∈ ws, wg.1 ≠ [] ∧ (∀ c ∈ wg.1, isBlank c = false) ∧
      (∀ c ∈ wg.2, isBlank c = true))
    (hgap : ∀ wg ∈ ws.dropLast, wg.2 ≠ []) :
    wordRunsAux (ws.map (fun wg => wg.1 ++ wg.2)).flatten [] = ws.map Prod.fst := by
  induction ws with
  | nil => simp [wordRunsAux]
  | cons wg rest ih =>
    obtain ⟨hw1, hw2, hw3⟩ := hws wg (List.mem_cons_self _ _)
    have hrest := fun x hx => hws x (List.mem_cons_of_mem _ hx)
    rw [List.map_cons, List.flatten_cons, List.append_assoc, wordRunsAux_word _ _ _ hw2,
      List.nil_append, List.map_cons]
    cases rest with
    | nil =>
      simp only [List.map_nil, List.flatten_nil, List.append_nil]
      by_cases hg : wg.2 = []
      · rw [hg]
        simp [wordRunsAux, hw1]
      · have h := wordRunsAux_gap wg.2 [] wg.1 hw3 hg hw1
        rw [List.append_nil] at h
        rw [h]
        simp [wordRunsAux]
    | cons wg2 rest2 =>
      have hg : wg.2 ≠ [] := hgap wg (by simp [List.dropLast])
      rw [wordRunsAux_gap _ _ _ hw3 hg hw1]
      rw [ih hrest (fun x hx => hgap x (by
        simp only [List.dropLast_cons₂, List.mem_cons]
        exact Or.inr hx))]

theorem wordRuns_layout (g0 : List Char) (ws : List (CStr × List Char)) (h : WellLaid g0 ws) :
    wordRuns (layout g0 ws) = ws.map Prod.fst := by
  rw [← wordRunsAux_nil_eq, layout, wordRunsAux_blanks _ _ h.1]
  exact wordRunsAux_words ws h.2.1 h.2.2

theorem wordRuns_intercalate (ws : List CStr)
    (hws : ∀ w ∈ ws, w ≠ [] ∧ ∀ c ∈ w, isBlank c = false) :
    wordRuns ([' '].intercalate ws) = ws := by
  rw [← wordRunsAux_nil_eq]
  induction ws with
  | nil => simp [List.intercalate, wordRunsAux]
  | cons w rest ih =>
    obtain ⟨hw1, hw2⟩ := hws w (List.mem_cons_self _ _)
    cases rest with
    | nil =>
      have h := wordRunsAux_word w [] [] hw2
      simp only [List.append_nil, List.nil_append] at h
      simp [List.intercalate, h, wordRunsAux, hw1]
    | cons w2 rest2 =>
      have hrec := ih (fun x hx => hws x (List.mem_cons_of_mem _ hx))
      have hform : [' '].intercalate (w :: w2 :: rest2)
          = w ++ ([' '] ++ [' '].intercalate (w2 :: rest2)) := by
        simp [List.intercalate]
      rw [hform, wordRunsAux_word _ _ _ hw2, List.nil_append,
        wordRunsAux_gap [' '] _ w (by decide) (by decide) hw1, hrec]

theorem splitOnP_pieces {α : Type} (q : α → Bool) (l : List α) :
    ∀ w ∈ l.splitOnP q, ∀ c ∈ w, q c = false := by
  induction l with
  | nil => simp
  | cons x xs ih =>
    rw [List.splitOnP_cons]
    by_cases hx : q x = true
    · rw [if_pos hx]
      intro w hw
      rcases List.mem_cons.mp hw with h1 | h1
      · rw [h1]; simp
      · exact ih w h1
    · rw [if_neg hx]
      cases hsp : xs.splitOnP q with
      | nil => simp [List.modifyHead]
      | cons y ys =>
        rw [hsp] at ih
        intro w hw
        simp only [List.modifyHead, List.mem_cons] at hw
        rcases hw with h1 | h1
        · rw [h1]
          intro c hc
          rcases List.mem_cons.mp hc with h2 | h2
          · rw [h2]; simpa using hx
          · exact ih y (List.mem_cons_self _ _) c h2
        · exact ih w (List.mem_cons_of_mem _ h1)

theorem wordRuns_tokens (l : List Char) :
    ∀ t ∈ wordRuns l, t ≠ [] ∧ ∀ c ∈ t, c ≠ ' ' ∧ c ≠ '\t' := by
  intro t ht
  unfold wordRuns at ht
  rw [List.mem_filter] at ht
  refine ⟨by simpa using ht.2, fun c hc => ?_⟩
  have := splitOnP_pieces isBlank l t ht.1 c hc
  simpa [isBlank] using this

/-- What `setup` returns on a line `body ++ "\n"` without `&` and NUL that fits the buffer and
the argument array. -/
theorem setup_wellformed (buf0 : List Char) (args0 : List (Option Nat)) (bg : Int)
    (body : List Char) (hcap : body.length + 2 ≤ 2 * args0.length)
    (hbody : ∀ c ∈ body, c ≠ '\n' ∧ c ≠ '&' ∧ c ≠ NUL) :
    ∃ buf args, setup buf0 args0 bg (.bytes (body ++ ['\n']))
        = .returned buf args bg (wordRuns body).length ∧
      (untilNull args).map (cstr buf) = wordRuns body ∧
      args[(wordRuns body).length]? = some none ∧ args.length = args0.length := by
  obtain ⟨rd, hrd⟩ : ∃ rd : ReadResult, rd = .bytes (body ++ ['\n']) := ⟨_, rfl⟩
  obtain ⟨s0, hs0⟩ : ∃ s0 : SetupState, s0 =
      { inputBuffer := rd.store buf0, args := args0, background := bg, start := -1, ct := 0 } :=
    ⟨_, rfl⟩
  rw [hrd] at hs0
  have hinit := setupInv_init body buf0 args0 bg
  rw [← hs0] at hinit
  have hloop := setupInv_loop body _ bg args0.length s0 hbody hcap hinit body.length (le_refl _)
  obtain ⟨front, P, h1, h2, h3, h4, h5, h6, h7⟩ := setupInv_final body _ bg args0.length _ hcap hloop
  rw [← setupLoop_succ] at h1 h2 h3 h5 h6
  have hPlen : P.length = (wordRuns body).length := by
    rw [← h7, List.length_map]
  have hlenpos : ¬ (ReadResult.bytes (body ++ ['\n'])).length = 0 := by
    simp only [ReadResult.length, List.length_append, List.length_singleton]
    omega
  have hlennn : ¬ ((ReadResult.bytes (body ++ ['\n'])).length < 0 ∧
      (ReadResult.bytes (body ++ ['\n'])).errno ≠ EINTR) := by
    simp only [ReadResult.length, List.length_append, List.length_singleton]
    omega
  have htoNat : (ReadResult.bytes (body ++ ['\n'])).length.toNat = body.length + 1 := by
    simp only [ReadResult.length, List.length_append, List.length_singleton]
    omega
  have hsetup : setup buf0 args0 bg (.bytes (body ++ ['\n']))
      = .returned (setupLoop s0 (body.length + 1)).inputBuffer
          ((setupLoop s0 (body.length + 1)).args.set (setupLoop s0 (body.length + 1)).ct none)
          (setupLoop s0 (body.length + 1)).background (setupLoop s0 (body.length + 1)).ct := by
    simp only [setup, hlenpos, hlennn, if_false, htoNat, hs0]
  obtain ⟨sF, hsF⟩ : ∃ sF, setupLoop s0 (body.length + 1) = sF := ⟨_, rfl⟩
  rw [hsF] at h1 h2 h3 h5 h6 hsetup
  refine ⟨sF.inputBuffer, sF.args.set sF.ct none, ?_, ?_, ?_, h5⟩
  · rw [hsetup, h2, h3, hPlen]
  · rw [h6, h1, h7]
  · rw [← hPlen, ← h3]
    apply List.getElem?_set_self
    rw [h3]
    rw [List.length_set] at h5
    omega

/-- C2: for every line of at most `MAX_LINE` bytes that holds no `&` and no NUL and whose only
newline is its last byte, `setup` returns; the strings of its argument vector are exactly the
maximal runs of bytes other than space and tab, in input order; the NULL sentinel follows them
inside the array; no token is empty or holds a blank.  Hence, if the line is laid out as blanks,
words and gaps, the tokens are its words, and if its words are separated by single spaces,
rejoining the tokens with single spaces gives the line back. -/
theorem setup_tokens_are_word_runs (buf0 : List Char) (args0 : List (Option Nat)) (bg : Int)
    (body : List Char) (hlen : (body ++ ['\n']).length ≤ MAX_LINE)
    (hargs : args0.length = MAX_LINE / 2 + 1)
    (hbody : ∀ c ∈ body, c ≠ '\n' ∧ c ≠ '&' ∧ c ≠ NUL) :
    ∃ buf args, setup buf0 args0 bg (.bytes (body ++ ['\n']))
        = .returned buf args bg (wordRuns body).length ∧
      (untilNull args).map (cstr buf) = wordRuns body ∧
      args[(wordRuns body).length]? = some none ∧
      (∀ t ∈ (untilNull args).map (cstr buf), t ≠ [] ∧ ∀ c ∈ t, c ≠ ' ' ∧ c ≠ '\t') ∧
      (∀ g0 ws, WellLaid g0 ws → body = layout g0 ws →
        (untilNull args).map (cstr buf) = ws.map Prod.fst) ∧
      (∀ ws : List CStr, (∀ w ∈ ws, w ≠ [] ∧ ∀ c ∈ w, isBlank c = false) →
        body = [' '].intercalate ws →
        [' '].intercalate ((untilNull args).map (cstr buf)) = body) := by
  have hcap : body.length + 2 ≤ 2 * args0.length := by
    rw [hargs]
    simp only [List.length_append, List.length_singleton, MAX_LINE] at hlen ⊢
    omega
  obtain ⟨buf, args, h1, h2, h3, _⟩ := setup_wellformed buf0 args0 bg body hcap hbody
  refine ⟨buf, args, h1, h2, h3, ?_, ?_, ?_⟩
  · rw [h2]
    exact wordRuns_tokens body
  · intro g0 ws hw hb
    rw [h2, hb]
    exact wordRuns_layout g0 ws hw
  · intro ws hws hb
    rw [h2, hb, wordRuns_intercalate ws hws]

/-- C2 at the line `"  ls  -l\tfoo \n"`, read into a buffer and an argument array that hold
stale data. -/
theorem setup_tokens_are_word_runs_witness :
    ∃ buf args, setup (List.replicate 80 'x') (List.replicate 41 (some 7)) 0
          (.bytes ("  ls  -l\tfoo ".toList ++ ['\n']))
        = .returned buf args 0 (wordRuns "  ls  -l\tfoo ".toList).length ∧
      (untilNull args).map (cstr buf) = wordRuns "  ls  -l\tfoo ".toList ∧
      args[(wordRuns "  ls  -l\tfoo ".toList).length]? = some none ∧
      (∀ t ∈ (untilNull args).map (cstr buf), t ≠ [] ∧ ∀ c ∈ t, c ≠ ' ' ∧ c ≠ '\t') ∧
      (∀ g0 ws, WellLaid g0 ws → "  ls  -l\tfoo ".toList = layout g0 ws →
        (untilNull args).map (cstr buf) = ws.map Prod.fst) ∧
      (∀ ws : List CStr, (∀ w ∈ ws, w ≠ [] ∧ ∀ c ∈ w, isBlank c = false) →
        "  ls  -l\tfoo ".toList = [' '].intercalate ws →
        [' '].intercalate ((untilNull args).map (cstr buf)) = "  ls  -l\tfoo ".toList) :=
  setup_tokens_are_word_runs (List.replicate 80 'x') (List.replicate 41 (some 7)) 0
    "  ls  -l\tfoo ".toList (by decide) (by decide) (by decide)

/-- C3, at the word `abc`: the line `abc&` gives the vector `[ab]` (the byte before the
marker is overwritten), the line `abc &` gives `[abc]`; the flag is 1 for both. -/
theorem setup_glued_marker_truncates_word :
    (setup (List.replicate 80 NUL) (List.replicate 41 none) 0
        (.bytes "abc&\n".toList)).createArgv = some ["ab".toList] ∧
    (setup (List.replicate 80 NUL) (List.replicate 41 none) 0
        (.bytes "abc &\n".toList)).createArgv = some ["abc".toList] ∧
    (setup (List.replicate 80 NUL) (List.replicate 41 none) 0
        (.bytes "abc&\n".toList)).backgroundFlag = some 1 ∧
    (setup (List.replicate 80 NUL) (List.replicate 41 none) 0
        (.bytes "abc &\n".toList)).backgroundFlag = some 1 := by
  decide

/-! ### The background flag -/

theorem setupStep_drop (s : SetupState) (i : Nat) :
    (setupStep s i).inputBuffer.drop (i + 1) = s.inputBuffer.drop (i + 1) := by
  unfold setupStep storeArg
  simp only
  split_ifs <;> first
    | rfl
    | exact List.drop_set_of_lt _ _ (by omega)

theorem setupStep_background (s : SetupState) (i : Nat) :
    (setupStep s i).background
      = if s.inputBuffer.getD i NUL = '&' then 1 else s.background := by
  unfold setupStep storeArg
  simp only
  by_cases h : s.inputBuffer.getD i NUL = '&'
  · rw [h]
    simp
  · simp only [h, if_false]
    split_ifs <;> rfl

theorem getD_eq_amp_iff (l : List Char) (i : Nat) :
    l.getD i NUL = '&' ↔ l[i]? = some '&' := by
  rw [List.getD_eq_getElem?_getD]
  cases h : l[i]? with
  | none =>
    simp only [Option.getD_none]
    constructor
    · intro e
      exact absurd e (by decide)
    · intro e
      cases e
  | some c => simp

theorem getElem?_of_drop_eq {α : Type} (l m : List α) (i : Nat) (h : l.drop i = m.drop i) :
    l[i]? = m[i]? := by
  have h1 : (l.drop i)[0]? = l[i]? := by rw [List.getElem?_drop]; rfl
  have h2 : (m.drop i)[0]? = m[i]? := by rw [List.getElem?_drop]; rfl
  rw [← h1, ← h2, h]

theorem setupLoop_background (s : SetupState) (i : Nat) :
    (setupLoop s i).inputBuffer.drop i = s.inputBuffer.drop i ∧
    (setupLoop s i).background = if '&' ∈ s.inputBuffer.take i then 1 else s.background := by
  induction i with
  | zero => simp [setupLoop]
  | succ k ih =>
    obtain ⟨ih1, ih2⟩ := ih
    rw [setupLoop_succ]
    refine ⟨?_, ?_⟩
    · rw [setupStep_drop, ← List.tail_drop, ← List.tail_drop, ih1]
    · rw [setupStep_background, ih2]
      have hiff : (setupLoop s k).inputBuffer.getD k NUL = '&' ↔ s.inputBuffer[k]? = some '&' := by
        rw [getD_eq_amp_iff, getElem?_of_drop_eq _ _ k ih1]
      have hmem : '&' ∈ s.inputBuffer.take (k + 1)
          ↔ '&' ∈ s.inputBuffer.take k ∨ s.inputBuffer[k]? = some '&' := by
        rw [List.take_succ, List.mem_append]
        cases hx : s.inputBuffer[k]? with
        | none => simp
        | some c =>
          simp only [Option.toList_some, List.mem_singleton, Option.some.injEq]
          exact or_congr Iff.rfl eq_comm
      by_cases hk : s.inputBuffer[k]? = some '&'
      · rw [if_pos (hiff.mpr hk), if_pos (hmem.mpr (Or.inr hk))]
      · rw [if_neg (fun e => hk (hiff.mp e))]
        by_cases ht : '&' ∈ s.inputBuffer.take k
        · rw [if_pos ht, if_pos (hmem.mpr (Or.inl ht))]
        · rw [if_neg ht, if_neg (fun e => (hmem.mp e).elim ht hk)]

theorem mem_of_trailingMarker (l : List Char) (h : trailingMarker l = true) : '&' ∈ l := by
  unfold trailingMarker at h
  have h1 : '&' ∈ (l.takeWhile (fun c => c != '\n')).reverse.dropWhile isBlank :=
    List.mem_of_mem_head? (by simpa using h)
  have h2 := (List.dropWhile_sublist isBlank).subset h1
  rw [List.mem_reverse] at h2
  exact (List.takeWhile_sublist _).subset h2

/-- The value of the flag that the embedded loop computes on a non-empty read. -/
theorem setup_background_flag (buf0 : List Char) (args0 : List (Option Nat))
    (l : List Char) (hl : l ≠ []) :
    ∃ buf args n bg, setup buf0 args0 0 (.bytes l) = .returned buf args bg n ∧
      (bg = 1 ↔ '&' ∈ l) ∧ (bg = 0 ↔ '&' ∉ l) ∧ (trailingMarker l = true → bg = 1) := by
  have hpos : 0 < l.length := List.length_pos.mpr hl
  have hlenpos : ¬ (ReadResult.bytes l).length = 0 := by
    simp only [ReadResult.length]
    omega
  have hlennn : ¬ ((ReadResult.bytes l).length < 0 ∧ (ReadResult.bytes l).errno ≠ EINTR) := by
    simp only [ReadResult.length]
    omega
  have htoNat : (ReadResult.bytes l).length.toNat = l.length := by
    simp only [ReadResult.length]
    omega
  obtain ⟨s0, hs0⟩ : ∃ s0 : SetupState, s0 =
      { inputBuffer := l ++ buf0.drop l.length, args := args0, background := 0, start := -1,
        ct := 0 } := ⟨_, rfl⟩
  have hsetup : setup buf0 args0 0 (.bytes l)
      = .returned (setupLoop s0 l.length).inputBuffer
          ((setupLoop s0 l.length).args.set (setupLoop s0 l.length).ct none)
          (setupLoop s0 l.length).background (setupLoop s0 l.length).ct := by
    simp only [setup, hlenpos, hlennn, if_false, htoNat, hs0, ReadResult.store]
  have hbg := (setupLoop_background s0 l.length).2
  have htake : s0.inputBuffer.take l.length = l := by
    rw [hs0]
    simp
  have hs0bg : s0.background = 0 := by rw [hs0]
  rw [htake, hs0bg] at hbg
  refine ⟨_, _, _, _, hsetup, ?_, ?_, ?_⟩
  · rw [hbg]
    by_cases hm : '&' ∈ l <;> simp [hm]
  · rw [hbg]
    by_cases hm : '&' ∈ l <;> simp [hm]
  · intro ht
    rw [hbg, if_pos (mem_of_trailingMarker l ht)]

/-- C4 as stated fails: on the line `a&b c` the flag is 1 although the last byte before the
newline that is not a blank is `c`. -/
theorem setup_background_inner_amp :
    (setup (List.replicate 80 NUL) (List.replicate 41 none) 0
        (.bytes "a&b c\n".toList)).backgroundFlag = some 1 ∧
    trailingMarker "a&b c\n".toList = false := by
  decide

/-- C5, at the read `a\nb\n`: the bytes after the first newline add a second token, a copy of
the first, where the read `a\n` gives the single token `a`. -/
theorem setup_goes_on_after_newline :
    (setup (List.replicate 80 NUL) (List.replicate 41 none) 0
        (.bytes "a\nb\n".toList)).tokens = ["a".toList, "a".toList] ∧
    (setup (List.replicate 80 NUL) (List.replicate 41 none) 0
        (.bytes "a\n".toList)).tokens = ["a".toList] ∧
    (setup (List.replicate 80 NUL) (List.replicate 41 none) 0
        (.bytes "a \nb\n".toList)).tokens = ["a".toList, "b".toList] := by
  decide

/-! ### The dispatcher -/

theorem exists_junk_of_mem_none {α : Type} (args : List (Option α)) (h : none ∈ args) :
    ∃ junk, args = (untilNull args).map some ++ none :: junk := by
  induction args with
  | nil => cases h
  | cons x xs ih =>
    cases x with
    | none => exact ⟨xs, rfl⟩
    | some a =>
      have hxs : none ∈ xs := by
        rcases List.mem_cons.mp h with h1 | h1
        · cases h1
        · exact h1
      obtain ⟨junk, hj⟩ := ih hxs
      refine ⟨junk, ?_⟩
      simp only [untilNull, List.map_cons, List.cons_append]
      rw [← hj]

/-- The state in which `main` reaches its chain of tests when `checkIO` has returned 0. -/
theorem mainIteration_no_redirect (env : Env) (st : ShellState) (rd : ReadResult)
    (buf : List Char) (args : List (Option Nat)) (bg : Int) (n : Nat) (name : CStr)
    (hret : setup st.inputBuffer st.args 0 rd = .returned buf args bg n)
    (hnull : none ∈ args)
    (hname : ((untilNull args).map (cstr buf)).head? = some name)
    (hnoop : ∀ t ∈ (untilNull args).map (cstr buf), isRedirOp t = false) :
    ∃ st3 : ShellState,
      st3.argv = (untilNull args).map (cstr buf) ∧
      st3.executablePath = findExecutablePath env (some name) [] ∧
      st3.foregroundProcess = st.foregroundProcess ∧
      st3.backgroundProcesses = st.backgroundProcesses ∧
      st3.backgroundProcessCount = st.backgroundProcessCount ∧
      st3.io.flags = (0, 0, 0, 0) ∧ st3.args = args ∧ st3.inputBuffer = buf ∧
      mainIteration env st rd =
        if name = "search".toList then ([.search st3.argv], .next st3)
        else if name = "bookmark".toList then ([.bookmark st3.argv], .next st3)
        else if name = "exit".toList then
          if st3.backgroundProcessCount > 0 then ([.jobsRunning], .next st3)
          else ([], .exit 0)
        else if isExecutable env st3.executablePath then
          match dropAmp buf st3.args n with
          | none => ([], .undefined)
          | some args2 => createProcess env { st3 with args := args2 } bg
        else ([.notExecutable (some name)], .next st3) := by
  obtain ⟨junk, hj⟩ := exists_junk_of_mem_none args hnull
  obtain ⟨p0, ps, hp, hp0⟩ : ∃ p0 ps, untilNull args = p0 :: ps ∧ cstr buf p0 = name := by
    cases hu : untilNull args with
    | nil => rw [hu] at hname; cases hname
    | cons p0 ps =>
      rw [hu] at hname
      simp only [List.map_cons, List.head?_cons, Option.some.injEq] at hname
      exact ⟨p0, ps, rfl, hname⟩
  have hargs : args = some p0 :: (ps.map some ++ none :: junk) := by
    rw [hj, hp]
    rfl
  have hno : ∀ p ∈ untilNull args, isRedirOp (cstr buf p) = false :=
    fun p hp1 => hnoop _ (List.mem_map_of_mem _ hp1)
  have hcheck := fun g => checkIO_no_operator (cstr buf) g (untilNull args) junk hno
  rw [← hj] at hcheck
  refine ⟨{ st with inputBuffer := buf, args := args, background := bg, numberOfArguments := n,
                    executablePath := findExecutablePath env (some name) [],
                    io := { st.io with input := 0, output := 0, append := 0,
                                       standardError := 0 } },
    rfl, rfl, rfl, rfl, rfl, rfl, rfl, rfl, ?_⟩
  unfold mainIteration
  rw [hret]
  simp only
  rw [hcheck]
  subst hargs
  simp only [hp0]
  simp

/-- The processes that `main` starts through `popen` when `checkIO` has returned 0: the one
lookup `which <name>` of line 742. -/
theorem mainPopens_no_redirect (env : Env) (st : ShellState) (rd : ReadResult)
    (buf : List Char) (args : List (Option Nat)) (bg : Int) (n : Nat) (name : CStr)
    (hret : setup st.inputBuffer st.args 0 rd = .returned buf args bg n)
    (hnull : none ∈ args)
    (hname : ((untilNull args).map (cstr buf)).head? = some name)
    (hnoop : ∀ t ∈ (untilNull args).map (cstr buf), isRedirOp t = false) :
    mainPopens env st rd = [whichCommand (some name)] := by
  obtain ⟨junk, hj⟩ := exists_junk_of_mem_none args hnull
  obtain ⟨p0, ps, hp, hp0⟩ : ∃ p0 ps, untilNull args = p0 :: ps ∧ cstr buf p0 = name := by
    cases hu : untilNull args with
    | nil => rw [hu] at hname; cases hname
    | cons p0 ps =>
      rw [hu] at hname
      simp only [List.map_cons, List.head?_cons, Option.some.injEq] at hname
      exact ⟨p0, ps, rfl, hname⟩
  have hargs : args = some p0 :: (ps.map some ++ none :: junk) := by
    rw [hj, hp]
    rfl
  have hno : ∀ p ∈ untilNull args, isRedirOp (cstr buf p) = false :=
    fun p hp1 => hnoop _ (List.mem_map_of_mem _ hp1)
  have hcheck := checkIO_no_operator (cstr buf) st.io (untilNull args) junk hno
  rw [← hj] at hcheck
  unfold mainPopens
  rw [hret]
  simp only
  rw [hcheck]
  subst hargs
  simp [hp0]

/-- C6: what `setup` does is fixed by the result of `read`.  When `read` returns 0 the process
exits with status 0; when it fails with an `errno` other than `EINTR` the process exits with a
status that is not 0; when it fails with `EINTR`, `setup` returns with no token (`args[0]` is
NULL, `numberOfArguments` is 0, the buffer and the flag untouched) and the iteration of `main`
ends without any call, without exit, with the jobs as they were. -/
theorem setup_read_outcomes (env : Env) (st : ShellState) (hargs : st.args ≠ []) :
    (setup st.inputBuffer st.args 0 (.bytes []) = .exited 0 ∧ exitStatus 0 = 0 ∧
      mainIteration env st (.bytes []) = ([], .exit 0)) ∧
    (∀ e, e ≠ EINTR →
      setup st.inputBuffer st.args 0 (.error e) = .exited (-1) ∧ exitStatus (-1) ≠ 0 ∧
      mainIteration env st (.error e) = ([], .exit (-1))) ∧
    (setup st.inputBuffer st.args 0 (.error EINTR)
        = .returned st.inputBuffer (st.args.set 0 none) 0 0 ∧
      (st.args.set 0 none)[0]? = some none ∧
      (setup st.inputBuffer st.args 0 (.error EINTR)).tokens = [] ∧
      mainIteration env st (.error EINTR)
        = ([], .next { st with args := st.args.set 0 none, background := 0,
                               numberOfArguments := 0 })) := by
  obtain ⟨x, xs, hx⟩ : ∃ x xs, st.args = x :: xs := by
    cases h : st.args with
    | nil => exact absurd h hargs
    | cons x xs => exact ⟨x, xs, rfl⟩
  have h0 : setup st.inputBuffer st.args 0 (.bytes []) = .exited 0 := by
    simp [setup, ReadResult.length]
  have he : ∀ e, e ≠ EINTR → setup st.inputBuffer st.args 0 (.error e) = .exited (-1) := by
    intro e hne
    simp [setup, ReadResult.length, ReadResult.errno, hne]
  have hi : setup st.inputBuffer st.args 0 (.error EINTR)
      = .returned st.inputBuffer (st.args.set 0 none) 0 0 := by
    simp [setup, ReadResult.length, ReadResult.errno, ReadResult.store, setupLoop]
  refine ⟨⟨h0, by decide, ?_⟩, ?_, hi, ?_, ?_, ?_⟩
  · unfold mainIteration
    rw [h0]
  · intro e hne
    refine ⟨he e hne, by decide, ?_⟩
    unfold mainIteration
    rw [he e hne]
  · rw [hx]
    simp
  · rw [hi, hx]
    rfl
  · unfold mainIteration
    rw [hi, hx]
    rfl

/-- C6 at a fresh shell. -/
theorem setup_read_outcomes_witness :
    (setup ShellState.initial.inputBuffer ShellState.initial.args 0 (.bytes []) = .exited 0 ∧
      exitStatus 0 = 0 ∧
      mainIteration (Env.sample 7) ShellState.initial (.bytes []) = ([], .exit 0)) ∧
    (∀ e, e ≠ EINTR →
      setup ShellState.initial.inputBuffer ShellState.initial.args 0 (.error e) = .exited (-1) ∧
      exitStatus (-1) ≠ 0 ∧
      mainIteration (Env.sample 7) ShellState.initial (.error e) = ([], .exit (-1))) ∧
    (setup ShellState.initial.inputBuffer ShellState.initial.args 0 (.error EINTR)
        = .returned ShellState.initial.inputBuffer (ShellState.initial.args.set 0 none) 0 0 ∧
      (ShellState.initial.args.set 0 none)[0]? = some none ∧
      (setup ShellState.initial.inputBuffer ShellState.initial.args 0 (.error EINTR)).tokens
        = [] ∧
      mainIteration (Env.sample 7) ShellState.initial (.error EINTR)
        = ([], .next { ShellState.initial with args := ShellState.initial.args.set 0 none,
                                                background := 0, numberOfArguments := 0 })) :=
  setup_read_outcomes (Env.sample 7) ShellState.initial (by decide)

/-- C7: for every state and every line that `setup` tokenizes, whose command name is `exit`
and that holds no redirection operator: if `backgroundProcessCount > 0` the iteration prints
the refusal, does not exit, leaves `foregroundProcess`, `backgroundProcesses` and the count as
they were and goes on to the next line; if the count is 0 the process exits with status 0. -/
theorem exit_refused_while_jobs_run (env : Env) (st : ShellState) (rd : ReadResult)
    (buf : List Char) (args : List (Option Nat)) (bg : Int) (n : Nat)
    (hret : setup st.inputBuffer st.args 0 rd = .returned buf args bg n)
    (hnull : none ∈ args)
    (hname : ((untilNull args).map (cstr buf)).head? = some "exit".toList)
    (hnoop : ∀ t ∈ (untilNull args).map (cstr buf), isRedirOp t = false) :
    (st.backgroundProcessCount > 0 →
      ∃ st3, mainIteration env st rd = ([.jobsRunning], .next st3) ∧
        st3.foregroundProcess = st.foregroundProcess ∧
        st3.backgroundProcesses = st.backgroundProcesses ∧
        st3.backgroundProcessCount = st.backgroundProcessCount) ∧
    (st.backgroundProcessCount = 0 →
      mainIteration env st rd = ([], .exit 0) ∧ exitStatus 0 = 0) := by
  obtain ⟨st3, _, _, hfg, hbp, hcount, _, _, _, hmain⟩ :=
    mainIteration_no_redirect env st rd buf args bg n _ hret hnull hname hnoop
  have h1 : ¬ "exit".toList = "search".toList := by decide
  have h2 : ¬ "exit".toList = "bookmark".toList := by decide
  rw [if_neg h1, if_neg h2, if_pos rfl, hcount] at hmain
  refine ⟨fun hpos => ⟨st3, ?_, hfg, hbp, hcount⟩, fun hzero => ⟨?_, by decide⟩⟩
  · rw [hmain, if_pos hpos]
  · rw [hmain, if_neg (by omega)]

/-- C7 at the line `exit` with the two live background jobs 101 and 102: the exit is refused. -/
theorem exit_refused_while_jobs_run_witness :
    (2 > 0 →
      ∃ st3, mainIteration (Env.sample 7)
          { ShellState.initial with backgroundProcesses := [101, 102],
                                    backgroundProcessCount := 2 }
          (.bytes "exit\n".toList) = ([.jobsRunning], .next st3) ∧
        st3.foregroundProcess = 0 ∧ st3.backgroundProcesses = [101, 102] ∧
        st3.backgroundProcessCount = 2) ∧
    (2 = 0 →
      mainIteration (Env.sample 7)
          { ShellState.initial with backgroundProcesses := [101, 102],
                                    backgroundProcessCount := 2 }
          (.bytes "exit\n".toList) = ([], .exit 0) ∧ exitStatus 0 = 0) :=
  exit_refused_while_jobs_run (Env.sample 7)
    { ShellState.initial with backgroundProcesses := [101, 102], backgroundProcessCount := 2 }
    (.bytes "exit\n".toList)
    ("exit".toList ++ NUL :: List.replicate 75 NUL)
    (some 0 :: List.replicate 40 none) 0 1 (by decide) (by decide) (by decide) (by decide)

/-- C8 as the code has it: for every line that `setup` tokenizes, whose command name is
`search`, `bookmark` or `exit` and that holds no redirection operator, the iteration of `main`
calls no `fork` and goes to the built-in: `search` and `bookmark` are called with the whole
argument vector (a background marker included) and the loop goes on; `exit` prints the refusal
and goes on, or exits with status 0.  The dispatcher does start one process on such a line:
the lookup `which <name>` that `findExecutablePath` runs through `popen` before any test. -/
theorem builtin_without_redirection_no_fork (env : Env) (st : ShellState) (rd : ReadResult)
    (buf : List Char) (args : List (Option Nat)) (bg : Int) (n : Nat) (name : CStr)
    (hret : setup st.inputBuffer st.args 0 rd = .returned buf args bg n)
    (hnull : none ∈ args)
    (hname : ((untilNull args).map (cstr buf)).head? = some name)
    (hbuiltin : name = "search".toList ∨ name = "bookmark".toList ∨ name = "exit".toList)
    (hnoop : ∀ t ∈ (untilNull args).map (cstr buf), isRedirOp t = false) :
    (∀ r, Event.fork r ∉ (mainIteration env st rd).1) ∧
    mainPopens env st rd = [whichCommand (some name)] ∧
    (name = "search".toList → ∃ st3, mainIteration env st rd
        = ([.search ((untilNull args).map (cstr buf))], .next st3)) ∧
    (name = "bookmark".toList → ∃ st3, mainIteration env st rd
        = ([.bookmark ((untilNull args).map (cstr buf))], .next st3)) ∧
    (name = "exit".toList → (∃ st3, mainIteration env st rd = ([.jobsRunning], .next st3)) ∨
        mainIteration env st rd = ([], .exit 0)) := by
  obtain ⟨st3, hargv, _, _, _, _, _, _, _, hmain⟩ :=
    mainIteration_no_redirect env st rd buf args bg n name hret hnull hname hnoop
  have hpopen := mainPopens_no_redirect env st rd buf args bg n name hret hnull hname hnoop
  rw [hargv] at hmain
  have h1 : ¬ "bookmark".toList = "search".toList := by decide
  have h2 : ¬ "exit".toList = "search".toList := by decide
  have h3 : ¬ "exit".toList = "bookmark".toList := by decide
  rcases hbuiltin with hn | hn | hn
  · subst hn
    rw [if_pos rfl] at hmain
    refine ⟨?_, hpopen, fun _ => ⟨st3, hmain⟩, fun e => absurd e.symm h1,
      fun e => absurd e.symm h2⟩
    intro r hr
    rw [hmain] at hr
    simp at hr
  · subst hn
    rw [if_neg h1, if_pos rfl] at hmain
    refine ⟨?_, hpopen, fun e => absurd e h1, fun _ => ⟨st3, hmain⟩,
      fun e => absurd e.symm h3⟩
    intro r hr
    rw [hmain] at hr
    simp at hr
  · subst hn
    rw [if_neg h2, if_neg h3, if_pos rfl] at hmain
    by_cases hc : st3.backgroundProcessCount > 0
    · rw [if_pos hc] at hmain
      refine ⟨?_, hpopen, fun e => absurd e h2, fun e => absurd e h3,
        fun _ => Or.inl ⟨st3, hmain⟩⟩
      intro r hr
      rw [hmain] at hr
      simp at hr
    · rw [if_neg hc] at hmain
      refine ⟨?_, hpopen, fun e => absurd e h2, fun e => absurd e h3, fun _ => Or.inr hmain⟩
      intro r hr
      rw [hmain] at hr
      simp at hr

/-- C8 as amended, at the line `bookmark -l &`, which carries a background marker. -/
theorem builtin_without_redirection_no_fork_witness :
    (∀ r, Event.fork r ∉
      (mainIteration (Env.sample 7) ShellState.initial (.bytes "bookmark -l &\n".toList)).1) ∧
    mainPopens (Env.sample 7) ShellState.initial (.bytes "bookmark -l &\n".toList)
      = [whichCommand (some "bookmark".toList)] ∧
    ("bookmark".toList = "search".toList → ∃ st3,
      mainIteration (Env.sample 7) ShellState.initial (.bytes "bookmark -l &\n".toList)
        = ([.search ((untilNull (some 0 :: some 9 :: some 12 :: List.replicate 38 none)).map
            (cstr ("bookmark".toList ++ NUL :: "-l".toList ++ NUL :: '&' ::
              List.replicate 67 NUL)))], .next st3)) ∧
    ("bookmark".toList = "bookmark".toList → ∃ st3,
      mainIteration (Env.sample 7) ShellState.initial (.bytes "bookmark -l &\n".toList)
        = ([.bookmark ((untilNull (some 0 :: some 9 :: some 12 :: List.replicate 38 none)).map
            (cstr ("bookmark".toList ++ NUL :: "-l".toList ++ NUL :: '&' ::
              List.replicate 67 NUL)))], .next st3)) ∧
    ("bookmark".toList = "exit".toList →
      (∃ st3, mainIteration (Env.sample 7) ShellState.initial
          (.bytes "bookmark -l &\n".toList) = ([.jobsRunning], .next st3)) ∨
      mainIteration (Env.sample 7) ShellState.initial (.bytes "bookmark -l &\n".toList)
        = ([], .exit 0)) :=
  builtin_without_redirection_no_fork (Env.sample 7) ShellState.initial
    (.bytes "bookmark -l &\n".toList)
    ("bookmark".toList ++ NUL :: "-l".toList ++ NUL :: '&' :: List.replicate 67 NUL)
    (some 0 :: some 9 :: some 12 :: List.replicate 38 none) 1 3 "bookmark".toList
    (by decide) (by decide) (by decide) (by decide) (by decide)

/-- C8 as stated fails twice.  On the line `search x > out` the command name is the built-in
`search`, yet `main` goes to `handleIO`, which calls `fork` (seen here in the parent, `fork`
returning 7, and in the child); the built-in is not called.  And on the line `bookmark -l`,
without any operator, the dispatcher starts a process all the same: `popen` runs
`which bookmark`. -/
theorem builtin_with_redirection_forks :
    mainPopens (Env.sample 7) ShellState.initial (.bytes "bookmark -l\n".toList)
      = ["which bookmark".toList] ∧
    (setup ShellState.initial.inputBuffer ShellState.initial.args 0
        (.bytes "search x > out\n".toList)).tokens.head? = some "search".toList ∧
    (mainIteration (Env.sample 7) ShellState.initial (.bytes "search x > out\n".toList)).1
      = [.fork 7] ∧
    (mainIteration (Env.sample 0) ShellState.initial (.bytes "search x > out\n".toList)).1
      = [.fork 0, .notExecutable (some "search".toList)] := by
  decide

/-- C9 as the code has it: for every line that `setup` tokenizes, that holds no redirection
operator, whose command name is not a built-in and does not resolve to an executable path,
the iteration of `main` reports that the command is not executable, calls no `fork`, leaves
the jobs as they were and goes on to the next line.  The dispatcher does start one process on
such a line: the lookup `which <name>` that `findExecutablePath` runs through `popen`. -/
theorem not_executable_reported_without_fork (env : Env) (st : ShellState) (rd : ReadResult)
    (buf : List Char) (args : List (Option Nat)) (bg : Int) (n : Nat) (name : CStr)
    (hret : setup st.inputBuffer st.args 0 rd = .returned buf args bg n)
    (hnull : none ∈ args)
    (hname : ((untilNull args).map (cstr buf)).head? = some name)
    (hnoop : ∀ t ∈ (untilNull args).map (cstr buf), isRedirOp t = false)
    (hnb : name ≠ "search".toList ∧ name ≠ "bookmark".toList ∧ name ≠ "exit".toList)
    (hnx : isExecutable env (findExecutablePath env (some name) []) = false) :
    (∃ st3, mainIteration env st rd = ([.notExecutable (some name)], .next st3) ∧
      st3.foregroundProcess = st.foregroundProcess ∧
      st3.backgroundProcesses = st.backgroundProcesses ∧
      st3.backgroundProcessCount = st.backgroundProcessCount) ∧
    mainPopens env st rd = [whichCommand (some name)] := by
  obtain ⟨st3, _, hpath, hfg, hbp, hcount, _, _, _, hmain⟩ :=
    mainIteration_no_redirect env st rd buf args bg n name hret hnull hname hnoop
  rw [if_neg hnb.1, if_neg hnb.2.1, if_neg hnb.2.2, hpath, hnx] at hmain
  exact ⟨⟨st3, by simpa using hmain, hfg, hbp, hcount⟩,
    mainPopens_no_redirect env st rd buf args bg n name hret hnull hname hnoop⟩

/-- C9 as amended, at the line `nosuch -x`. -/
theorem not_executable_reported_without_fork_witness :
    (∃ st3, mainIteration (Env.sample 7) ShellState.initial (.bytes "nosuch -x\n".toList)
        = ([.notExecutable (some "nosuch".toList)], .next st3) ∧
      st3.foregroundProcess = ShellState.initial.foregroundProcess ∧
      st3.backgroundProcesses = ShellState.initial.backgroundProcesses ∧
      st3.backgroundProcessCount = ShellState.initial.backgroundProcessCount) ∧
    mainPopens (Env.sample 7) ShellState.initial (.bytes "nosuch -x\n".toList)
      = [whichCommand (some "nosuch".toList)] :=
  not_executable_reported_without_fork (Env.sample 7) ShellState.initial
    (.bytes "nosuch -x\n".toList)
    ("nosuch".toList ++ NUL :: "-x".toList ++ List.replicate 71 NUL)
    (some 0 :: some 7 :: List.replicate 39 none) 0 2 "nosuch".toList
    (by decide) (by decide) (by decide) (by decide) (by decide) (by decide)

/-- C9 as stated fails three times.  On `nosuch > out`, whose command name resolves to
nothing, `main` goes to `handleIO`, which calls `fork` before any check (the parent, where
`fork` returns 7, reports nothing; the child reports).  On `exit`, whose name resolves to
nothing either, nothing is reported and the process exits.  And on the plain line `nosuch -x`
the dispatcher starts a process to learn that the name resolves to nothing: `popen` runs
`which nosuch`. -/
theorem not_executable_fork_or_builtin :
    mainPopens (Env.sample 7) ShellState.initial (.bytes "nosuch -x\n".toList)
      = ["which nosuch".toList] ∧
    isExecutable (Env.sample 7) (findExecutablePath (Env.sample 7) (some "nosuch".toList) [])
      = false ∧
    (mainIteration (Env.sample 7) ShellState.initial (.bytes "nosuch > out\n".toList)).1
      = [.fork 7] ∧
    (mainIteration (Env.sample 0) ShellState.initial (.bytes "nosuch > out\n".toList)).1
      = [.fork 0, .notExecutable (some "nosuch".toList)] ∧
    isExecutable (Env.sample 7) (findExecutablePath (Env.sample 7) (some "exit".toList) [])
      = false ∧
    mainIteration (Env.sample 7) ShellState.initial (.bytes "exit\n".toList) = ([], .exit 0) := by
  decide

/-- C10, at the line `ls 2> err` with `ls` executable: the child (`fork` returns 0) re-targets
standard error and then returns from `handleIO` into the loop of `main` without any `execv`;
with `>`, `>>` and `<` the child re-targets the stream and calls `execv` with the truncated
vector. -/
theorem handleIO_stderr_plan_never_execs :
    (mainIteration (Env.sample 0) ShellState.initial (.bytes "ls -l 2> err\n".toList)).1
      = [.fork 0, .freopen (some "err".toList) ['w'] .stderr] ∧
    (mainIteration (Env.sample 0) ShellState.initial
      (.bytes "ls -l 2> err\n".toList)).2.goesOn = true ∧
    mainIteration (Env.sample 0) ShellState.initial (.bytes "ls -l > out\n".toList)
      = ([.fork 0, .freopen (some "out".toList) ['w'] .stdout,
          .execv "/bin/ls".toList ["ls".toList, "-l".toList]], .exec) ∧
    mainIteration (Env.sample 0) ShellState.initial (.bytes "ls -l >> out\n".toList)
      = ([.fork 0, .freopen (some "out".toList) ['a'] .stdout,
          .execv "/bin/ls".toList ["ls".toList, "-l".toList]], .exec) ∧
    mainIteration (Env.sample 0) ShellState.initial (.bytes "cat -n < in\n".toList)
      = ([.fork 0, .freopen (some "in".toList) ['r'] .stdin,
          .execv "/bin/cat".toList ["cat".toList, "-n".toList]], .exec) := by
  refine ⟨by decide, by decide, by decide, by decide, by decide⟩

/-- C11, at a child (`fork` returns 0) whose `execv` fails.  On the line `ls -l` the child of
`createProcess` reports and exits with `EXIT_FAILURE`.  On the line `ls -l > out` the child of
`handleIO` reports nothing and does not exit: `handleIO` returns and the child goes on in the
loop of `main`. -/
theorem handleIO_child_survives_failed_execv :
    mainIteration { Env.sample 0 with execvFails := true } ShellState.initial
        (.bytes "ls -l\n".toList)
      = ([.fork 0, .execv "/bin/ls".toList ["ls".toList, "-l".toList], .execFailed],
         .exit EXIT_FAILURE) ∧
    (mainIteration { Env.sample 0 with execvFails := true } ShellState.initial
        (.bytes "ls -l > out\n".toList)).1
      = [.fork 0, .freopen (some "out".toList) ['w'] .stdout,
         .execv "/bin/ls".toList ["ls".toList, "-l".toList]] ∧
    (mainIteration { Env.sample 0 with execvFails := true } ShellState.initial
        (.bytes "ls -l > out\n".toList)).2.goesOn = true := by
  refine ⟨by decide, by decide, by decide⟩

theorem handleIO_head (env : Env) (st : ShellState) :
    ( handleIO env st).1.head? = some (.fork env.fork) := by
  unfold handleIO
  simp only
  split_ifs <;> rfl

/-- C12 as the code has it: when the target file cannot be opened, `handleIO` neither notices
nor reports it.  In the child, when the command is executable, the input, output and append
plans still end in `execv` of the resolved executable with the truncated vector, and no other
call is made; in the parent `handleIO` only forks and returns, so the loop goes on. -/
theorem handleIO_ignores_failed_freopen (env : Env) (st : ShellState)
    (hfail : env.freopenFails = true) :
    (env.fork = 0 →
      isExecutable env (findExecutablePath env
        ((st.args.getD 0 none).map (cstr st.inputBuffer)) st.executablePath) = true →
      st.io.input = 1 ∨ st.io.output = 1 ∨ st.io.append = 1 →
      ∃ file mode stream, ( handleIO env st).1
          = [.fork 0, .freopen file mode stream,
             .execv (findExecutablePath env ((st.args.getD 0 none).map (cstr st.inputBuffer))
               st.executablePath) st.argv] ∧
        (env.execvFails = false → ( handleIO env st).2 = .exec)) ∧
    (env.fork > 0 → handleIO env st = ([.fork env.fork], .next st)) := by
  have _ := hfail
  refine ⟨?_, ?_⟩
  · intro hchild hx hplan
    unfold handleIO
    simp only [hchild, if_true, hx, not_true_eq_false, if_false]
    by_cases h1 : st.io.input = 1
    · simp only [h1, if_true]
      exact ⟨_, _, _, rfl, fun he => by simp [he]⟩
    by_cases h2 : st.io.output = 1
    · simp only [h1, h2, if_true, if_false]
      exact ⟨_, _, _, rfl, fun he => by simp [he]⟩
    by_cases h3 : st.io.append = 1
    · simp only [h1, h2, h3, if_true, if_false]
      exact ⟨_, _, _, rfl, fun he => by simp [he]⟩
    · rcases hplan with h | h | h
      · exact absurd h h1
      · exact absurd h h2
      · exact absurd h h3
  · intro hparent
    unfold handleIO
    have h0 : ¬ env.fork = 0 := by omega
    have hneg : ¬ env.fork < 0 := by omega
    simp only [h0, hneg, if_false]

/-- C12 as amended, in the child and in the parent of the line `ls -l > /no/out`. -/
theorem handleIO_ignores_failed_freopen_witness :
    (({ Env.sample 0 with freopenFails := true } : Env).fork = 0 →
      isExecutable { Env.sample 0 with freopenFails := true }
        (findExecutablePath { Env.sample 0 with freopenFails := true }
          (((ShellState.initial.args.set 0 (some 0)).getD 0 none).map
            (cstr ("ls".toList ++ List.replicate 78 NUL))) []) = true →
      (1 : Int) = 1 ∨ (0 : Int) = 1 ∨ (0 : Int) = 1 →
      ∃ file mode stream, ( handleIO { Env.sample 0 with freopenFails := true }
          { ShellState.initial with inputBuffer := "ls".toList ++ List.replicate 78 NUL,
                                    args := ShellState.initial.args.set 0 (some 0),
                                    io := ⟨1, 0, 0, 0, none, none⟩ }).1
          = [.fork 0, .freopen file mode stream,
             .execv (findExecutablePath { Env.sample 0 with freopenFails := true }
               (((ShellState.initial.args.set 0 (some 0)).getD 0 none).map
                 (cstr ("ls".toList ++ List.replicate 78 NUL))) [])
               ["ls".toList]] ∧
        (false = false → ( handleIO { Env.sample 0 with freopenFails := true }
          { ShellState.initial with inputBuffer := "ls".toList ++ List.replicate 78 NUL,
                                    args := ShellState.initial.args.set 0 (some 0),
                                    io := ⟨1, 0, 0, 0, none, none⟩ }).2 = .exec)) ∧
    (({ Env.sample 0 with freopenFails := true } : Env).fork > 0 →
      handleIO { Env.sample 0 with freopenFails := true }
          { ShellState.initial with inputBuffer := "ls".toList ++ List.replicate 78 NUL,
                                    args := ShellState.initial.args.set 0 (some 0),
                                    io := ⟨1, 0, 0, 0, none, none⟩ }
        = ([.fork 0], .next
          { ShellState.initial with inputBuffer := "ls".toList ++ List.replicate 78 NUL,
                                    args := ShellState.initial.args.set 0 (some 0),
                                    io := ⟨1, 0, 0, 0, none, none⟩ })) :=
  handleIO_ignores_failed_freopen { Env.sample 0 with freopenFails := true }
    { ShellState.initial with inputBuffer := "ls".toList ++ List.replicate 78 NUL,
                              args := ShellState.initial.args.set 0 (some 0),
                              io := ⟨1, 0, 0, 0, none, none⟩ } rfl

/-- C12 as stated fails: on the line `ls -l > /no/out`, with a target that cannot be opened,
the child still executes `/bin/ls` and nothing is reported. -/
theorem handleIO_execs_after_failed_freopen :
    ({ Env.sample 0 with freopenFails := true } : Env).freopenFails = true ∧
    mainIteration { Env.sample 0 with freopenFails := true } ShellState.initial
        (.bytes "ls -l > /no/out\n".toList)
      = ([.fork 0, .freopen (some "/no/out".toList) ['w'] .stdout,
          .execv "/bin/ls".toList ["ls".toList, "-l".toList]], .exec) := by
  refine ⟨rfl, by decide⟩

/-- The state in which `main` calls `handleIO` when `checkIO` has found an operator. -/
theorem mainIteration_redirect (env : Env) (st : ShellState) (rd : ReadResult)
    (buf : List Char) (args : List (Option Nat)) (bg : Int) (n : Nat)
    (pre : List CStr) (op : CStr) (post : List CStr)
    (hret : setup st.inputBuffer st.args 0 rd = .returned buf args bg n)
    (hnull : none ∈ args)
    (htoks : (untilNull args).map (cstr buf) = pre ++ op :: post)
    (hpre : ∀ t ∈ pre, isRedirOp t = false) (hop : isRedirOp op = true) :
    ∃ st3 : ShellState, mainIteration env st rd = handleIO env st3 ∧
      st3.io.flags = opFlags op ∧ st3.io.target.map (cstr buf) = post.head? ∧
      st3.argv = pre ∧ st3.inputBuffer = buf ∧
      st3.foregroundProcess = st.foregroundProcess ∧
      st3.backgroundProcesses = st.backgroundProcesses ∧
      st3.backgroundProcessCount = st.backgroundProcessCount := by
  obtain ⟨junk, hj⟩ := exists_junk_of_mem_none args hnull
  obtain ⟨P1, Q, hP, hP1, hQ⟩ := List.map_eq_append_iff.mp htoks
  obtain ⟨q, P2, hQ2, hq, hP2⟩ := List.map_eq_cons_iff.mp hQ
  rw [hQ2] at hP
  rw [hP] at hj
  have hpre2 : ∀ p ∈ P1, isRedirOp (cstr buf p) = false := by
    intro p hp
    apply hpre
    rw [← hP1]
    exact List.mem_map_of_mem _ hp
  have hop2 : isRedirOp (cstr buf q) = true := by rw [hq]; exact hop
  obtain ⟨r, hr, hret1, hflags, htarget, _, hun⟩ :=
    checkIO_at_operator (cstr buf) st.io P1 q P2 junk hpre2 hop2
  rw [← hj] at hr
  obtain ⟨p0, tl, hargs⟩ : ∃ p0 tl, args = some p0 :: tl := by
    rw [hj]
    cases P1 with
    | nil => exact ⟨q, _, rfl⟩
    | cons p ps => exact ⟨p, _, rfl⟩
  refine ⟨{ st with inputBuffer := buf, args := r.args, background := bg,
                    numberOfArguments := n,
                    executablePath := findExecutablePath env (some (cstr buf p0)) [],
                    io := r.g }, ?_, ?_, ?_, ?_, rfl, rfl, rfl, rfl⟩
  · unfold mainIteration
    rw [hret]
    subst hargs
    simp only
    rw [hr]
    simp only [hret1, if_true]
  · rw [← hq]
    exact hflags
  · simp only
    rw [htarget, ← hP2]
    cases P2 <;> rfl
  · simp only [ShellState.argv]
    rw [hun, hP1]

/-- C13 as the code has it: when the first redirection operator is the last token, `checkIO`
still returns 1 with that operator's flag set and a NULL file name, and `main` calls
`handleIO`, whose first act is `fork`: a plan without target reaches `handleIO` and a process
is created. -/
theorem missing_target_reaches_handleIO (env : Env) (st : ShellState) (rd : ReadResult)
    (buf : List Char) (args : List (Option Nat)) (bg : Int) (n : Nat)
    (pre : List CStr) (op : CStr)
    (hret : setup st.inputBuffer st.args 0 rd = .returned buf args bg n)
    (hnull : none ∈ args)
    (htoks : (untilNull args).map (cstr buf) = pre ++ [op])
    (hpre : ∀ t ∈ pre, isRedirOp t = false) (hop : isRedirOp op = true) :
    ∃ st3 : ShellState, mainIteration env st rd = handleIO env st3 ∧
      st3.io.flags = opFlags op ∧ st3.io.target = none ∧ st3.argv = pre ∧
      (mainIteration env st rd).1.head? = some (.fork env.fork) := by
  obtain ⟨st3, hmain, hflags, htarget, hargv, _⟩ :=
    mainIteration_redirect env st rd buf args bg n pre op [] hret hnull htoks hpre hop
  refine ⟨st3, hmain, hflags, ?_, hargv, ?_⟩
  · simpa using htarget
  · rw [hmain]
    exact handleIO_head env st3

/-- C13 as amended, at the line `ls >`. -/
theorem missing_target_reaches_handleIO_witness :
    ∃ st3 : ShellState,
      mainIteration (Env.sample 7) ShellState.initial (.bytes "ls >\n".toList)
        = handleIO (Env.sample 7) st3 ∧
      st3.io.flags = opFlags ">".toList ∧ st3.io.target = none ∧ st3.argv = ["ls".toList] ∧
      (mainIteration (Env.sample 7) ShellState.initial (.bytes "ls >\n".toList)).1.head?
        = some (.fork (Env.sample 7).fork) :=
  missing_target_reaches_handleIO (Env.sample 7) ShellState.initial (.bytes "ls >\n".toList)
    ("ls".toList ++ NUL :: '>' :: List.replicate 76 NUL)
    (some 0 :: some 3 :: List.replicate 39 none) 0 2 ["ls".toList] ">".toList
    (by decide) (by decide) (by decide) (by decide) (by decide)

/-- C13 as stated fails: on the line `ls >` the parent forks (`fork` returns 7), and the
child passes the NULL file name to `freopen` and executes `/bin/ls`. -/
theorem missing_target_forks :
    (mainIteration (Env.sample 7) ShellState.initial (.bytes "ls >\n".toList)).1 = [.fork 7] ∧
    mainIteration (Env.sample 0) ShellState.initial (.bytes "ls >\n".toList)
      = ([.fork 0, .freopen none ['w'] .stdout, .execv "/bin/ls".toList ["ls".toList]],
         .exec) := by
  refine ⟨by decide, by decide⟩

/-- C14, at the foreground line `ls -l` in the parent (`fork` returns 1234): the pid is put in
`foregroundProcess`, `wait` is called, and when `createProcess` has returned the slot still
holds 1234; the job table is as it was. -/
theorem createProcess_leaves_foreground_pid :
    (mainIteration (Env.sample 1234) ShellState.initial (.bytes "ls -l\n".toList)).1
      = [.fork 1234, .wait] ∧
    (mainIteration (Env.sample 1234) ShellState.initial
      (.bytes "ls -l\n".toList)).2.state?.map (fun st => st.foregroundProcess) = some 1234 ∧
    (mainIteration (Env.sample 1234) ShellState.initial
      (.bytes "ls -l\n".toList)).2.state?.map
        (fun st => (st.backgroundProcesses, st.backgroundProcessCount)) = some ([], 0) := by
  refine ⟨by decide, by decide, by decide⟩

/-! ### The job table -/

theorem removeProcessLoop_absent (env : Env) (st : ShellState) (pid : Int)
    (A B : List Int) (hbp : st.backgroundProcesses = A ++ B) (hB : ∀ x ∈ B, x ≠ pid) :
    removeProcessLoop env st pid B.length A.length = .next st := by
  induction B generalizing A with
  | nil => rfl
  | cons b B ih =>
    have hget : st.backgroundProcesses[A.length]? = some b := by
      rw [hbp, List.getElem?_append_right (le_refl _)]
      simp
    have hb : ¬ b = pid := hB b (List.mem_cons_self _ _)
    have hrec := ih (A ++ [b]) (by rw [hbp]; simp)
      (fun x hx => hB x (List.mem_cons_of_mem _ hx))
    rw [List.length_append, List.length_singleton] at hrec
    simp only [List.length_cons, removeProcessLoop, hget, hb, if_false]
    exact hrec

theorem reallocPids_memmove (A B : List Int) (pid : Int) :
    reallocPids (memmovePids (A ++ pid :: B) A.length (A.length + 1)
      ((A ++ pid :: B).length - A.length - 1)) ((A ++ pid :: B).length - 1) = A ++ B := by
  have hn : (A ++ pid :: B).length - A.length - 1 = B.length := by
    simp only [List.length_append, List.length_cons]
    omega
  have hc : (A ++ pid :: B).length - 1 = (A ++ B).length := by
    simp only [List.length_append, List.length_cons]
    omega
  have hd : (A ++ pid :: B).drop (A.length + 1) = B := by
    rw [show A ++ pid :: B = (A ++ [pid]) ++ B by simp]
    exact List.drop_left' (by simp)
  rw [hn, hc]
  unfold memmovePids reallocPids
  rw [List.take_left' rfl, hd, List.take_length, List.take_left' rfl]
  simp

theorem removeProcessLoop_present (env : Env) (st : ShellState) (pid : Int)
    (A0 A1 B : List Int) (hbp : st.backgroundProcesses = A0 ++ A1 ++ pid :: B)
    (hlen : st.backgroundProcesses.length = st.backgroundProcessCount)
    (hre : env.reallocFails = false) (hA1 : ∀ x ∈ A1, x ≠ pid) :
    removeProcessLoop env st pid (A1.length + 1 + B.length) A0.length
      = .next { st with backgroundProcesses := A0 ++ A1 ++ B,
                        backgroundProcessCount := st.backgroundProcessCount - 1 } := by
  induction A1 generalizing A0 with
  | nil =>
    rw [List.append_nil] at hbp
    have hget : st.backgroundProcesses[A0.length]? = some pid := by
      rw [hbp, List.getElem?_append_right (le_refl _)]
      simp
    have hk : ([] : List Int).length + 1 + B.length = B.length + 1 := by
      simp only [List.length_nil]
      omega
    rw [hk]
    simp only [removeProcessLoop, hget, if_true, hre, Bool.false_eq_true, false_and, if_false,
      List.append_nil]
    rw [← hlen, hbp, reallocPids_memmove]
  | cons a A1 ih =>
    have hget : st.backgroundProcesses[A0.length]? = some a := by
      rw [hbp, List.append_assoc, List.getElem?_append_right (le_refl _)]
      simp
    have ha : ¬ a = pid := hA1 a (List.mem_cons_self _ _)
    have hrec := ih (A0 ++ [a]) (by rw [hbp]; simp)
      (fun x hx => hA1 x (List.mem_cons_of_mem _ hx))
    rw [List.length_append, List.length_singleton] at hrec
    have hk : (a :: A1).length + 1 + B.length = (A1.length + 1 + B.length) + 1 := by
      simp only [List.length_cons]
      omega
    rw [hk]
    simp only [removeProcessLoop, hget, ha, if_false]
    rw [hrec]
    simp

theorem erase_of_first {A B : List Int} {pid : Int} (hA : ∀ x ∈ A, x ≠ pid) :
    (A ++ pid :: B).erase pid = A ++ B := by
  induction A with
  | nil => simp
  | cons a A ih =>
    have ha : a ≠ pid := hA a (List.mem_cons_self _ _)
    rw [List.cons_append, List.erase_cons_tail (by simpa using ha),
      ih (fun x hx => hA x (List.mem_cons_of_mem _ hx))]
    rfl

theorem exists_first_occurrence (l : List Int) (pid : Int) (h : pid ∈ l) :
    ∃ A B, l = A ++ pid :: B ∧ ∀ x ∈ A, x ≠ pid := by
  induction l with
  | nil => cases h
  | cons a l ih =>
    by_cases ha : a = pid
    · exact ⟨[], l, by rw [ha]; rfl, fun x hx => by cases hx⟩
    · have hl : pid ∈ l := by
        rcases List.mem_cons.mp h with h1 | h1
        · exact absurd h1.symm ha
        · exact h1
      obtain ⟨A, B, hAB, hA⟩ := ih hl
      refine ⟨a :: A, B, by rw [hAB]; rfl, ?_⟩
      intro x hx
      rcases List.mem_cons.mp hx with h1 | h1
      · rw [h1]; exact ha
      · exact hA x h1

/-- What `removeProcess` does to a job table whose array holds `backgroundProcessCount`
cells, when `realloc` does not fail. -/
theorem removeProcess_eq (env : Env) (st : ShellState) (pid : Int)
    (hlen : st.backgroundProcesses.length = st.backgroundProcessCount)
    (hre : env.reallocFails = false) :
    removeProcess env st pid
      = .next { st with backgroundProcesses := st.backgroundProcesses.erase pid,
                        backgroundProcessCount := (st.backgroundProcesses.erase pid).length } := by
  unfold removeProcess
  by_cases hmem : pid ∈ st.backgroundProcesses
  · obtain ⟨A, B, hAB, hA⟩ := exists_first_occurrence _ pid hmem
    have h := removeProcessLoop_present env st pid [] A B (by simpa using hAB) hlen hre hA
    have hcount : st.backgroundProcessCount = A.length + 1 + B.length := by
      rw [← hlen, hAB]
      simp only [List.length_append, List.length_cons]
      omega
    rw [List.length_nil, ← hcount] at h
    rw [h, hAB, erase_of_first hA, hcount]
    simp
  · have h := removeProcessLoop_absent env st pid [] st.backgroundProcesses (by simp)
      (fun x hx e => hmem (e ▸ hx))
    rw [List.length_nil, hlen] at h
    rw [h, List.erase_of_not_mem hmem, hlen]

/-- C15: `removeProcess` erases the first occurrence.  On a job table whose array holds
`backgroundProcessCount` cells (and with `realloc` not failing): if the pid is present the new
table is the old one without the first occurrence of the pid, the other pids in their order,
and the count is one less; if the pid is absent the state is unchanged and the call returns;
on a table without duplicates a second `removeProcess(pid)` changes nothing. -/
theorem removeProcess_erases_first_occurrence (env : Env) (st : ShellState) (pid : Int)
    (hlen : st.backgroundProcesses.length = st.backgroundProcessCount)
    (hre : env.reallocFails = false) :
    (pid ∈ st.backgroundProcesses →
      ∃ st1, removeProcess env st pid = .next st1 ∧
        st1.backgroundProcesses = st.backgroundProcesses.erase pid ∧
        (∀ A B, st.backgroundProcesses = A ++ pid :: B → pid ∉ A →
          st1.backgroundProcesses = A ++ B) ∧
        st1.backgroundProcessCount + 1 = st.backgroundProcessCount ∧
        st1.backgroundProcesses.length = st1.backgroundProcessCount ∧
        st1.foregroundProcess = st.foregroundProcess) ∧
    (pid ∉ st.backgroundProcesses → removeProcess env st pid = .next st) ∧
    (st.backgroundProcesses.Nodup →
      ∀ st1, removeProcess env st pid = .next st1 → removeProcess env st1 pid = .next st1) := by
  have heq := removeProcess_eq env st pid hlen hre
  refine ⟨?_, ?_, ?_⟩
  · intro hmem
    refine ⟨_, heq, rfl, ?_, ?_, rfl, rfl⟩
    · intro A B hAB hA
      simp only
      rw [hAB]
      exact erase_of_first (fun x hx e => hA (e ▸ hx))
    · simp only
      rw [List.length_erase_of_mem hmem, hlen]
      have : 0 < st.backgroundProcesses.length := List.length_pos_of_mem hmem
      omega
  · intro hmem
    rw [heq, List.erase_of_not_mem hmem, hlen]
  · intro hnd st1 hst1
    rw [heq] at hst1
    have hst1' := Flow.next.inj hst1
    have hlen1 : st1.backgroundProcesses.length = st1.backgroundProcessCount := by
      rw [← hst1']
    have hnot : pid ∉ st1.backgroundProcesses := by
      rw [← hst1']
      exact hnd.not_mem_erase
    rw [removeProcess_eq env st1 pid hlen1 hre, List.erase_of_not_mem hnot, hlen1]

/-- C15 at the table `[5, 6, 7, 6]` and the pid 6. -/
theorem removeProcess_erases_first_occurrence_witness :
    ((6 : Int) ∈ [5, 6, 7, 6] →
      ∃ st1, removeProcess (Env.sample 0)
          { ShellState.initial with backgroundProcesses := [5, 6, 7, 6],
                                    backgroundProcessCount := 4 } 6 = .next st1 ∧
        st1.backgroundProcesses = [5, 6, 7, 6].erase 6 ∧
        (∀ A B, [5, 6, 7, 6] = A ++ 6 :: B → 6 ∉ A → st1.backgroundProcesses = A ++ B) ∧
        st1.backgroundProcessCount + 1 = 4 ∧
        st1.backgroundProcesses.length = st1.backgroundProcessCount ∧
        st1.foregroundProcess = 0) ∧
    ((6 : Int) ∉ [5, 6, 7, 6] →
      removeProcess (Env.sample 0)
          { ShellState.initial with backgroundProcesses := [5, 6, 7, 6],
                                    backgroundProcessCount := 4 } 6
        = .next { ShellState.initial with backgroundProcesses := [5, 6, 7, 6],
                                          backgroundProcessCount := 4 }) ∧
    (([5, 6, 7, 6] : List Int).Nodup →
      ∀ st1, removeProcess (Env.sample 0)
          { ShellState.initial with backgroundProcesses := [5, 6, 7, 6],
                                    backgroundProcessCount := 4 } 6 = .next st1 →
        removeProcess (Env.sample 0) st1 6 = .next st1) :=
  removeProcess_erases_first_occurrence (Env.sample 0)
    { ShellState.initial with backgroundProcesses := [5, 6, 7, 6], backgroundProcessCount := 4 }
    6 rfl rfl

theorem reapAll_eq (env : Env) (st : ShellState) (pids : List Int)
    (hlen : st.backgroundProcesses.length = st.backgroundProcessCount)
    (hre : env.reallocFails = false) :
    reapAll env st pids
      = .next { st with backgroundProcesses := pids.foldl List.erase st.backgroundProcesses,
                        backgroundProcessCount :=
                          (pids.foldl List.erase st.backgroundProcesses).length } := by
  induction pids generalizing st with
  | nil =>
    simp only [reapAll, List.foldl_nil]
    rw [hlen]
  | cons p ps ih =>
    simp only [reapAll, removeProcess_eq env st p hlen hre, List.foldl_cons]
    rw [ih _ rfl]

theorem sigchldHandler_eq_reapAll (env : Env) (wifexited : Int → Bool) (st : ShellState)
    (results : List (Int × Int))
    (hlen : st.backgroundProcesses.length = st.backgroundProcessCount)
    (hre : env.reallocFails = false) (hpos : ∀ r ∈ results, r.1 > 0) :
    sigchldHandler env wifexited st results
      = reapAll env st ((results.filter (fun r => wifexited r.2)).map Prod.fst) := by
  induction results generalizing st with
  | nil => rfl
  | cons r rs ih =>
    obtain ⟨pid, status⟩ := r
    have hp : pid > 0 := hpos (pid, status) (List.mem_cons_self _ _)
    have hrs : ∀ r ∈ rs, r.1 > 0 := fun r hr => hpos r (List.mem_cons_of_mem _ hr)
    by_cases hw : wifexited status = true
    · simp only [sigchldHandler, hp, if_true, hw, List.filter_cons_of_pos, List.map_cons, reapAll,
        removeProcess_eq env st pid hlen hre]
      exact ih _ rfl hrs
    · have hw2 : wifexited status = false := by simpa using hw
      simp only [sigchldHandler, hp, if_true, hw2, Bool.false_eq_true, if_false]
      rw [ih st hlen hrs, List.filter_cons_of_neg (by simpa using hw2)]

theorem mem_foldl_erase_of_not_mem (l pids : List Int) (a : Int) (ha : a ∈ l)
    (hnot : a ∉ pids) : a ∈ pids.foldl List.erase l := by
  induction pids generalizing l with
  | nil => exact ha
  | cons p ps ih =>
    have hap : a ≠ p := fun e => hnot (e ▸ List.mem_cons_self _ _)
    rw [List.foldl_cons]
    exact ih _ ((List.mem_erase_of_ne hap).mpr ha) (fun h => hnot (List.mem_cons_of_mem _ h))

/-- C16: for every finite sequence of results `(pid, status)` with `pid > 0` that the
successive `waitpid` calls of one notification return, `sigchldHandler` goes through the whole
sequence and does exactly the calls `removeProcess(pid)` for the results whose status is a
normal exit, in order; the job table it leaves is the original one with those pids erased, and
a pid of the table whose results are all abnormal ends stays in it. -/
theorem sigchldHandler_reaps_normal_exits (env : Env) (wifexited : Int → Bool)
    (st : ShellState) (results : List (Int × Int))
    (hlen : st.backgroundProcesses.length = st.backgroundProcessCount)
    (hre : env.reallocFails = false) (hpos : ∀ r ∈ results, r.1 > 0) :
    sigchldHandler env wifexited st results
      = reapAll env st ((results.filter (fun r => wifexited r.2)).map Prod.fst) ∧
    ∃ st1, sigchldHandler env wifexited st results = .next st1 ∧
      st1.backgroundProcesses
        = ((results.filter (fun r => wifexited r.2)).map Prod.fst).foldl List.erase
            st.backgroundProcesses ∧
      st1.backgroundProcessCount = st1.backgroundProcesses.length ∧
      st1.foregroundProcess = st.foregroundProcess ∧
      (∀ pid ∈ st.backgroundProcesses,
        (∀ r ∈ results, r.1 = pid → wifexited r.2 = false) → pid ∈ st1.backgroundProcesses) := by
  have h1 := sigchldHandler_eq_reapAll env wifexited st results hlen hre hpos
  have h2 := reapAll_eq env st ((results.filter (fun r => wifexited r.2)).map Prod.fst) hlen hre
  rw [← h1] at h2
  refine ⟨h1, _, h2, rfl, rfl, rfl, ?_⟩
  intro pid hpid hall
  apply mem_foldl_erase_of_not_mem _ _ _ hpid
  intro hm
  obtain ⟨r, hr, hrp⟩ := List.mem_map.mp hm
  have hr2 := List.mem_filter.mp hr
  have := hall r hr2.1 hrp
  rw [this] at hr2
  exact absurd hr2.2 (by simp)

/-- C16 at the table `[5, 6, 7]`, the results (6, normal exit), (5, killed by signal 9),
(7, normal exit), with `WIFEXITED(status)` as `status % 128 = 0`. -/
theorem sigchldHandler_reaps_normal_exits_witness :
    sigchldHandler (Env.sample 0) (fun status => status % 128 = 0)
        { ShellState.initial with backgroundProcesses := [5, 6, 7],
                                  backgroundProcessCount := 3 } [(6, 0), (5, 9), (7, 256)]
      = reapAll (Env.sample 0)
          { ShellState.initial with backgroundProcesses := [5, 6, 7],
                                    backgroundProcessCount := 3 }
          (([(6, 0), (5, 9), (7, 256)].filter
            (fun r => (fun status : Int => decide (status % 128 = 0)) r.2)).map Prod.fst) ∧
    ∃ st1, sigchldHandler (Env.sample 0) (fun status => status % 128 = 0)
        { ShellState.initial with backgroundProcesses := [5, 6, 7],
                                  backgroundProcessCount := 3 } [(6, 0), (5, 9), (7, 256)]
        = .next st1 ∧
      st1.backgroundProcesses
        = (([(6, 0), (5, 9), (7, 256)].filter
            (fun r => (fun status : Int => decide (status % 128 = 0)) r.2)).map
              Prod.fst).foldl List.erase [5, 6, 7] ∧
      st1.backgroundProcessCount = st1.backgroundProcesses.length ∧
      st1.foregroundProcess = 0 ∧
      (∀ pid ∈ ([5, 6, 7] : List Int),
        (∀ r ∈ [(6, 0), (5, 9), (7, 256)], r.1 = pid →
          (fun status : Int => decide (status % 128 = 0)) r.2 = false) →
        pid ∈ st1.backgroundProcesses) :=
  sigchldHandler_reaps_normal_exits (Env.sample 0) (fun status => status % 128 = 0)
    { ShellState.initial with backgroundProcesses := [5, 6, 7], backgroundProcessCount := 3 }
    [(6, 0), (5, 9), (7, 256)] rfl rfl (by decide)

/-- C17: for every state, `sigtstpHandler` sends `SIGKILL` to the process group of the
foreground pid (`kill(-p, SIGKILL)`) and sets `foregroundProcess` to 0 when the slot holds a
pid `p > 0`, and does nothing otherwise; the job table and its count stay as they are. -/
theorem sigtstpHandler_kills_foreground_group (st : ShellState) :
    (st.foregroundProcess > 0 →
      sigtstpHandler st
        = ([.kill (-st.foregroundProcess) SIGKILL], { st with foregroundProcess := 0 })) ∧
    (¬ st.foregroundProcess > 0 → sigtstpHandler st = ([], st)) ∧
    (sigtstpHandler st).2.backgroundProcesses = st.backgroundProcesses ∧
    (sigtstpHandler st).2.backgroundProcessCount = st.backgroundProcessCount := by
  unfold sigtstpHandler
  by_cases h : st.foregroundProcess > 0
  · simp [h]
  · simp [h]

/-- C17 at a state with the foreground pid 1234 and the jobs 5 and 6. -/
theorem sigtstpHandler_kills_foreground_group_witness :
    sigtstpHandler { ShellState.initial with foregroundProcess := 1234,
                                             backgroundProcesses := [5, 6],
                                             backgroundProcessCount := 2 }
      = ([.kill (-1234) SIGKILL],
         { ShellState.initial with foregroundProcess := 0, backgroundProcesses := [5, 6],
                                   backgroundProcessCount := 2 }) :=
  (sigtstpHandler_kills_foreground_group
    { ShellState.initial with foregroundProcess := 1234, backgroundProcesses := [5, 6],
                              backgroundProcessCount := 2 }).1 (by decide)

theorem createProcess_background (env : Env) (st : ShellState) (pid : Int)
    (hlen : st.backgroundProcesses.length = st.backgroundProcessCount)
    (hre : env.reallocFails = false) (hpid : pid > 0) :
    createProcess { env with fork := pid } st 1
      = ([.fork pid], .next { st with backgroundProcessCount := st.backgroundProcessCount + 1,
                                      backgroundProcesses := st.backgroundProcesses ++ [pid] }) := by
  have h1 : ¬ pid = -1 := by omega
  have h2 : ¬ pid = 0 := by omega
  have h3 : ¬ (1 : Int) = 0 := by decide
  have hset : (reallocPids st.backgroundProcesses (st.backgroundProcessCount + 1)).set
      (st.backgroundProcessCount + 1 - 1) pid = st.backgroundProcesses ++ [pid] := by
    unfold reallocPids
    rw [← hlen, List.take_of_length_le (by omega)]
    have hrep : st.backgroundProcesses.length + 1 - st.backgroundProcesses.length = 1 := by omega
    rw [hrep]
    simp only [List.replicate_one, Nat.add_sub_cancel]
    exact set_append_length _ _ _ _
  unfold createProcess
  simp only [h1, h2, h3, hre, if_false, Bool.false_eq_true]
  rw [hset]

theorem launchAll_eq (env : Env) (st : ShellState) (pids : List Int)
    (hlen : st.backgroundProcesses.length = st.backgroundProcessCount)
    (hre : env.reallocFails = false) (hpos : ∀ p ∈ pids, p > 0) :
    launchAll env st pids
      = .next { st with backgroundProcessCount := st.backgroundProcessCount + pids.length,
                        backgroundProcesses := st.backgroundProcesses ++ pids } := by
  induction pids generalizing st with
  | nil => simp [launchAll]
  | cons p ps ih =>
    have hp : p > 0 := hpos p (List.mem_cons_self _ _)
    simp only [launchAll, createProcess_background env st p hlen hre hp]
    rw [ih _ (by simp [hlen]) (fun q hq => hpos q (List.mem_cons_of_mem _ hq))]
    simp only [List.length_cons, List.append_assoc, List.singleton_append]
    congr 2
    omega

theorem foldl_erase_nodup (l pids : List Int) (hl : l.Nodup) :
    (pids.foldl List.erase l).Nodup := by
  induction pids generalizing l with
  | nil => exact hl
  | cons p ps ih => exact ih _ (hl.erase p)

theorem mem_foldl_erase_iff (l pids : List Int) (a : Int) (hl : l.Nodup) :
    a ∈ pids.foldl List.erase l ↔ a ∈ l ∧ a ∉ pids := by
  induction pids generalizing l with
  | nil => simp
  | cons p ps ih =>
    rw [List.foldl_cons, ih _ (hl.erase p), hl.mem_erase_iff, List.mem_cons]
    constructor
    · rintro ⟨⟨h1, h2⟩, h3⟩
      exact ⟨h2, fun h => h.elim h1 h3⟩
    · rintro ⟨h1, h2⟩
      exact ⟨⟨fun e => h2 (Or.inl e), h1⟩, fun h => h2 (Or.inr h)⟩

theorem length_foldl_erase (l pids : List Int) (hl : l.Nodup) (hp : pids.Nodup)
    (hsub : ∀ p ∈ pids, p ∈ l) :
    (pids.foldl List.erase l).length + pids.length = l.length := by
  induction pids generalizing l with
  | nil => simp
  | cons p ps ih =>
    have hpl : p ∈ l := hsub p (List.mem_cons_self _ _)
    have hps : ps.Nodup := (List.nodup_cons.mp hp).2
    have hpn : p ∉ ps := (List.nodup_cons.mp hp).1
    have hsub2 : ∀ q ∈ ps, q ∈ l.erase p := by
      intro q hq
      rw [hl.mem_erase_iff]
      exact ⟨fun e => hpn (e ▸ hq), hsub q (List.mem_cons_of_mem _ hq)⟩
    have h := ih (l.erase p) (hl.erase p) hps hsub2
    rw [List.length_erase_of_mem hpl] at h
    have hpos : 0 < l.length := List.length_pos_of_mem hpl
    rw [List.foldl_cons, List.length_cons]
    omega

/-- C18: from an empty job table, with `realloc` not failing, for every list of pairwise
distinct pids (each `> 0`, as `fork` returns them in the parent) and every order of reaping:
after the first `k` background launches the table is those `k` pids in order, the count is `k`
and `foregroundProcess` is untouched; after the launches and the first `j` calls of
`removeProcess` the table has no duplicate, holds none of the pids already reaped, only
launched pids, and the count is the number of launches less `j`; after all of them the table
is empty and the count is 0. -/
theorem background_jobs_return_to_empty (env : Env) (st : ShellState) (pids order : List Int)
    (hre : env.reallocFails = false)
    (hempty : st.backgroundProcesses = [] ∧ st.backgroundProcessCount = 0)
    (hnodup : pids.Nodup) (hpos : ∀ p ∈ pids, p > 0) (hperm : order.Perm pids) :
    (∀ k, ∃ stk, launchAll env st (pids.take k) = .next stk ∧
      stk.backgroundProcesses = pids.take k ∧
      stk.backgroundProcessCount = (pids.take k).length ∧
      stk.backgroundProcesses.Nodup ∧ stk.foregroundProcess = st.foregroundProcess) ∧
    ∃ stN, launchAll env st pids = .next stN ∧ stN.backgroundProcesses = pids ∧
      stN.backgroundProcessCount = pids.length ∧
      (∀ j, ∃ stj, reapAll env stN (order.take j) = .next stj ∧
        stj.backgroundProcesses.Nodup ∧
        (∀ p ∈ order.take j, p ∉ stj.backgroundProcesses) ∧
        (∀ p ∈ stj.backgroundProcesses, p ∈ pids) ∧
        stj.backgroundProcessCount = stj.backgroundProcesses.length ∧
        stj.backgroundProcessCount + (order.take j).length = pids.length) ∧
      ∃ stE, reapAll env stN order = .next stE ∧ stE.backgroundProcesses = [] ∧
        stE.backgroundProcessCount = 0 := by
  obtain ⟨hbp, hcount⟩ := hempty
  have hlen : st.backgroundProcesses.length = st.backgroundProcessCount := by
    rw [hbp, hcount]
    rfl
  have hlaunch : ∀ l : List Int, (∀ p ∈ l, p > 0) →
      launchAll env st l = .next { st with backgroundProcessCount := l.length,
                                           backgroundProcesses := l } := by
    intro l hl
    rw [launchAll_eq env st l hlen hre hl, hbp, hcount]
    simp
  have honodup : order.Nodup := hperm.nodup_iff.mpr hnodup
  have hreap : ∀ r : List Int,
      reapAll env { st with backgroundProcessCount := pids.length, backgroundProcesses := pids } r
        = .next { st with backgroundProcesses := r.foldl List.erase pids,
                          backgroundProcessCount := (r.foldl List.erase pids).length } := by
    intro r
    rw [reapAll_eq env _ r rfl hre]
  have hfacts : ∀ r : List Int, r.Nodup → (∀ p ∈ r, p ∈ pids) →
      (r.foldl List.erase pids).Nodup ∧ (∀ p ∈ r, p ∉ r.foldl List.erase pids) ∧
      (∀ p ∈ r.foldl List.erase pids, p ∈ pids) ∧
      (r.foldl List.erase pids).length + r.length = pids.length := by
    intro r hr hsub
    refine ⟨foldl_erase_nodup pids r hnodup, ?_, ?_, length_foldl_erase pids r hnodup hr hsub⟩
    · intro p hp hm
      exact ((mem_foldl_erase_iff pids r p hnodup).mp hm).2 hp
    · intro p hm
      exact ((mem_foldl_erase_iff pids r p hnodup).mp hm).1
  refine ⟨?_, _, hlaunch pids hpos, rfl, rfl, ?_, ?_⟩
  · intro k
    refine ⟨_, hlaunch (pids.take k) (fun p hp => hpos p (List.mem_of_mem_take hp)), rfl, rfl,
      ?_, rfl⟩
    exact hnodup.sublist (List.take_sublist k pids)
  · intro j
    obtain ⟨f1, f2, f3, f4⟩ := hfacts (order.take j)
      (honodup.sublist (List.take_sublist j order))
      (fun p hp => hperm.mem_iff.mp (List.mem_of_mem_take hp))
    exact ⟨_, hreap (order.take j), f1, f2, f3, rfl, f4⟩
  · obtain ⟨_, _, _, f4⟩ := hfacts order honodup (fun p hp => hperm.mem_iff.mp hp)
    have hzero : (order.foldl List.erase pids).length = 0 := by
      have := hperm.length_eq
      omega
    refine ⟨_, hreap order, ?_, ?_⟩
    · exact List.length_eq_zero.mp hzero
    · exact hzero

/-- C18 at the three launches 11, 12, 13, reaped in the order 12, 13, 11. -/
theorem background_jobs_return_to_empty_witness :
    (∀ k, ∃ stk, launchAll (Env.sample 0) ShellState.initial (([11, 12, 13] : List Int).take k)
        = .next stk ∧
      stk.backgroundProcesses = ([11, 12, 13] : List Int).take k ∧
      stk.backgroundProcessCount = (([11, 12, 13] : List Int).take k).length ∧
      stk.backgroundProcesses.Nodup ∧
      stk.foregroundProcess = ShellState.initial.foregroundProcess) ∧
    ∃ stN, launchAll (Env.sample 0) ShellState.initial [11, 12, 13] = .next stN ∧
      stN.backgroundProcesses = [11, 12, 13] ∧
      stN.backgroundProcessCount = ([11, 12, 13] : List Int).length ∧
      (∀ j, ∃ stj, reapAll (Env.sample 0) stN (([12, 13, 11] : List Int).take j) = .next stj ∧
        stj.backgroundProcesses.Nodup ∧
        (∀ p ∈ ([12, 13, 11] : List Int).take j, p ∉ stj.backgroundProcesses) ∧
        (∀ p ∈ stj.backgroundProcesses, p ∈ ([11, 12, 13] : List Int)) ∧
        stj.backgroundProcessCount = stj.backgroundProcesses.length ∧
        stj.backgroundProcessCount + (([12, 13, 11] : List Int).take j).length
          = ([11, 12, 13] : List Int).length) ∧
      ∃ stE, reapAll (Env.sample 0) stN [12, 13, 11] = .next stE ∧
        stE.backgroundProcesses = [] ∧ stE.backgroundProcessCount = 0 :=
  background_jobs_return_to_empty (Env.sample 0) ShellState.initial [11, 12, 13] [12, 13, 11]
    rfl ⟨rfl, rfl⟩ (by decide) (by decide) (by decide)

/-! ### The writes of setup -/

theorem setupStep_count (s : SetupState) (i : Nat)
    (hJ : 2 * s.ct + (if s.start = -1 then 0 else 1) ≤ i) :
    (s.inputBuffer.getD i NUL ≠ '\n' →
      2 * (setupStep s i).ct + (if (setupStep s i).start = -1 then 0 else 1) ≤ i + 1) ∧
    2 * (setupStep s i).ct ≤ i + 1 ∧
    ∀ k ∈ stepArgWrites s i, 2 * k ≤ i + 1 := by
  have hi : ¬ ((i : Int) = -1) := natCast_ne_neg_one i
  have hm : (-1 : Int) = -1 := rfl
  unfold setupStep stepArgWrites storeArg
  simp only
  generalize s.inputBuffer.getD i NUL = c
  by_cases hs : s.start = -1
  · have hs2 : ¬ (s.start ≠ -1) := fun h => h hs
    rw [if_pos hs] at hJ
    by_cases hb : c = ' ' ∨ c = '\t'
    · simp only [if_pos hb, if_neg hs2, if_pos hm, if_true]
      refine ⟨fun _ => by omega, by omega, fun k hk => by cases hk⟩
    · by_cases hn : c = '\n'
      · simp only [if_neg hb, if_pos hn, if_neg hs2]
        refine ⟨fun hne => absurd hn hne, by omega, fun k hk => ?_⟩
        rw [List.mem_singleton] at hk
        omega
      · by_cases ha : c = '&'
        · simp only [if_neg hb, if_neg hn, if_pos ha, if_pos hs, if_neg hi]
          refine ⟨fun _ => by omega, by omega, fun k hk => by cases hk⟩
        · simp only [if_neg hb, if_neg hn, if_neg ha, if_pos hs, if_neg hi]
          refine ⟨fun _ => by omega, by omega, fun k hk => by cases hk⟩
  · have hs2 : s.start ≠ -1 := hs
    rw [if_neg hs] at hJ
    by_cases hb : c = ' ' ∨ c = '\t'
    · simp only [if_pos hb, if_pos hs2, if_pos hm, if_true]
      refine ⟨fun _ => by omega, by omega, fun k hk => ?_⟩
      rw [List.mem_singleton] at hk
      omega
    · by_cases hn : c = '\n'
      · simp only [if_neg hb, if_pos hn, if_pos hs2]
        refine ⟨fun hne => absurd hn hne, by omega, fun k hk => ?_⟩
        simp only [List.mem_cons, List.mem_singleton, List.not_mem_nil, or_false] at hk
        omega
      · by_cases ha : c = '&'
        · simp only [if_neg hb, if_neg hn, if_pos ha, if_neg hs]
          refine ⟨fun _ => by omega, by omega, fun k hk => by cases hk⟩
        · simp only [if_neg hb, if_neg hn, if_neg ha, if_neg hs]
          refine ⟨fun _ => by omega, by omega, fun k hk => by cases hk⟩

theorem setupLoop_getD (s : SetupState) (i : Nat) :
    (setupLoop s i).inputBuffer.getD i NUL = s.inputBuffer.getD i NUL := by
  rw [List.getD_eq_getElem?_getD, List.getD_eq_getElem?_getD,
    getElem?_of_drop_eq _ _ i (setupLoop_background s i).1]

theorem setupLoop_count (s : SetupState) (hs : s.start = -1 ∧ s.ct = 0) (i : Nat)
    (hnl : ∀ j, j < i → s.inputBuffer.getD j NUL ≠ '\n') :
    2 * (setupLoop s i).ct + (if (setupLoop s i).start = -1 then 0 else 1) ≤ i := by
  induction i with
  | zero => simp [setupLoop, hs.1, hs.2]
  | succ k ih =>
    rw [setupLoop_succ]
    have hk := ih (fun j hj => hnl j (by omega))
    apply (setupStep_count _ k hk).1
    rw [setupLoop_getD]
    exact hnl k (by omega)

theorem getD_store_ne_newline (buf0 l : List Char) (hnl : ∀ c ∈ l.dropLast, c ≠ '\n')
    (j : Nat) (hj : j + 1 < l.length) :
    (ReadResult.store buf0 (.bytes l)).getD j NUL ≠ '\n' := by
  have hj2 : j < l.dropLast.length := by
    rw [List.length_dropLast]
    omega
  have hmem : l.dropLast[j] ∈ l.dropLast := List.getElem_mem _
  have heq : (ReadResult.store buf0 (.bytes l)).getD j NUL = l.dropLast[j] := by
    simp only [ReadResult.store]
    rw [List.getD_eq_getElem?_getD, List.getElem?_append_left (by omega),
      List.getElem?_eq_getElem (by omega), List.getElem_dropLast]
    rfl
  rw [heq]
  exact hnl _ hmem

/-- C19: for every read of at most `MAX_LINE` bytes whose only newline, if any, is its last
byte, every index of `args` that `setup` writes (tokens and NULL sentinels, the final
`args[ct] = NULL` included) is at most `MAX_LINE / 2 = 40`, hence inside the array of
`MAX_LINE / 2 + 1` entries that `main` passes, and `setup` stores at most 40 tokens. -/
theorem setup_arg_writes_in_bounds (buf0 : List Char) (args0 : List (Option Nat)) (bg : Int)
    (l : List Char) (hlen : l.length ≤ MAX_LINE)
    (hargs : args0.length = MAX_LINE / 2 + 1)
    (hnl : ∀ c ∈ l.dropLast, c ≠ '\n') :
    (∀ k ∈ setupArgWrites buf0 args0 bg (.bytes l), k ≤ 40 ∧ k < args0.length) ∧
    (∀ buf args bg1 n, setup buf0 args0 bg (.bytes l) = .returned buf args bg1 n → n ≤ 40) := by
  have hmax : l.length ≤ 80 := hlen
  have h41 : args0.length = 41 := hargs
  by_cases hl : l.length = 0
  · have h0 : (ReadResult.bytes l).length = 0 := by simp [ReadResult.length, hl]
    refine ⟨?_, ?_⟩
    · intro k hk
      simp [setupArgWrites, h0] at hk
    · intro buf args bg1 n hret
      simp [setup, h0] at hret
  · have hlenpos : ¬ (ReadResult.bytes l).length = 0 := by
      simp only [ReadResult.length]
      omega
    have hlennn : ¬ ((ReadResult.bytes l).length < 0 ∧ (ReadResult.bytes l).errno ≠ EINTR) := by
      simp only [ReadResult.length]
      omega
    have htoNat : (ReadResult.bytes l).length.toNat = l.length := by
      simp only [ReadResult.length]
      omega
    obtain ⟨s0, hs0⟩ : ∃ s0 : SetupState, s0 =
        { inputBuffer := ReadResult.store buf0 (.bytes l), args := args0, background := bg,
          start := -1, ct := 0 } := ⟨_, rfl⟩
    have hstart : s0.start = -1 ∧ s0.ct = 0 := by rw [hs0]; exact ⟨rfl, rfl⟩
    have hbuf : s0.inputBuffer = ReadResult.store buf0 (.bytes l) := by rw [hs0]
    have hJ : ∀ i, i < l.length →
        2 * (setupLoop s0 i).ct + (if (setupLoop s0 i).start = -1 then 0 else 1) ≤ i := by
      intro i hi
      apply setupLoop_count s0 hstart i
      intro j hj
      rw [hbuf]
      exact getD_store_ne_newline buf0 l hnl j (by omega)
    have hfinal : 2 * (setupLoop s0 l.length).ct ≤ l.length := by
      obtain ⟨m, hm⟩ : ∃ m, l.length = m + 1 := ⟨l.length - 1, by omega⟩
      rw [hm, setupLoop_succ]
      exact (setupStep_count _ m (hJ m (by omega))).2.1
    refine ⟨?_, ?_⟩
    · intro k hk
      simp only [setupArgWrites, hlenpos, hlennn, if_false, htoNat, ← hs0, List.mem_append,
        List.mem_flatMap, List.mem_range, List.mem_singleton] at hk
      rcases hk with ⟨i, hi, hki⟩ | hk
      · have := (setupStep_count _ i (hJ i hi)).2.2 k hki
        omega
      · rw [hk]
        omega
    · intro buf args bg1 n hret
      simp only [setup, hlenpos, hlennn, if_false, htoNat, ← hs0, SetupResult.returned.injEq] at hret
      rw [← hret.2.2.2]
      omega

/-- C19 at the line `a b c`. -/
theorem setup_arg_writes_in_bounds_witness :
    (∀ k ∈ setupArgWrites (List.replicate 80 NUL) (List.replicate 41 none) 0
        (.bytes "a b c\n".toList), k ≤ 40 ∧ k < (List.replicate 41 (none : Option Nat)).length) ∧
    (∀ buf args bg1 n, setup (List.replicate 80 NUL) (List.replicate 41 none) 0
        (.bytes "a b c\n".toList) = .returned buf args bg1 n → n ≤ 40) :=
  setup_arg_writes_in_bounds (List.replicate 80 NUL) (List.replicate 41 none) 0
    "a b c\n".toList (by decide) (by decide) (by decide)

/-- C20, at the read `&` followed by a newline (2 bytes): for the `&` at index 0 `setup` writes
`inputBuffer[-1]`, before the start of the buffer; the writes of the call are at the indices
-1 and 1. -/
theorem setup_amp_at_start_writes_before_buffer :
    setupBufWrites (List.replicate 80 NUL) (List.replicate 41 none) 0 (.bytes "&\n".toList)
      = [-1, 1] ∧
    ¬ (∀ k ∈ setupBufWrites (List.replicate 80 NUL) (List.replicate 41 none) 0
        (.bytes "&\n".toList), 0 ≤ k ∧ k < 2) := by
  refine ⟨by decide, by decide⟩

theorem setupArgWrites_lt (buf0 : List Char) (args0 : List (Option Nat)) (bg : Int)
    (l : List Char) (hlen : l.length ≤ MAX_LINE) (hargs : args0.length = MAX_LINE / 2 + 1)
    (hnl : ∀ c ∈ l.dropLast, c ≠ '\n') :
    ∀ k ∈ setupArgWrites buf0 args0 bg (.bytes l), k < args0.length := by
  have hmax : l.length ≤ 80 := hlen
  have h41 : args0.length = 41 := hargs
  intro k hk
  by_cases hl : l.length = 0
  · have h0 : (ReadResult.bytes l).length = 0 := by simp [ReadResult.length, hl]
    simp [setupArgWrites, h0] at hk
  · have hlenpos : ¬ (ReadResult.bytes l).length = 0 := by
      simp only [ReadResult.length]
      omega
    have hlennn : ¬ ((ReadResult.bytes l).length < 0 ∧ (ReadResult.bytes l).errno ≠ EINTR) := by
      simp only [ReadResult.length]
      omega
    have htoNat : (ReadResult.bytes l).length.toNat = l.length := by
      simp only [ReadResult.length]
      omega
    obtain ⟨s0, hs0⟩ : ∃ s0 : SetupState, s0 =
        { inputBuffer := ReadResult.store buf0 (.bytes l), args := args0, background := bg,
          start := -1, ct := 0 } := ⟨_, rfl⟩
    have hstart : s0.start = -1 ∧ s0.ct = 0 := by rw [hs0]; exact ⟨rfl, rfl⟩
    have hbuf : s0.inputBuffer = ReadResult.store buf0 (.bytes l) := by rw [hs0]
    have hJ : ∀ i, i < l.length →
        2 * (setupLoop s0 i).ct + (if (setupLoop s0 i).start = -1 then 0 else 1) ≤ i := by
      intro i hi
      apply setupLoop_count s0 hstart i
      intro j hj
      rw [hbuf]
      exact getD_store_ne_newline buf0 l hnl j (by omega)
    have hfinal : 2 * (setupLoop s0 l.length).ct ≤ l.length := by
      obtain ⟨m, hm⟩ : ∃ m, l.length = m + 1 := ⟨l.length - 1, by omega⟩
      rw [hm, setupLoop_succ]
      exact (setupStep_count _ m (hJ m (by omega))).2.1
    simp only [setupArgWrites, hlenpos, hlennn, if_false, htoNat, ← hs0, List.mem_append,
      List.mem_flatMap, List.mem_range, List.mem_singleton] at hk
    rcases hk with ⟨i, hi, hki⟩ | hk
    · have := (setupStep_count _ i (hJ i hi)).2.2 k hki
      omega
    · rw [hk]
      omega

theorem setupBufWrites_in_bounds (buf0 : List Char) (args0 : List (Option Nat)) (bg : Int)
    (l : List Char) (hfirst : l.head? ≠ some '&') :
    ∀ k ∈ setupBufWrites buf0 args0 bg (.bytes l), 0 ≤ k ∧ k < (l.length : Int) := by
  intro k hk
  by_cases hl : l.length = 0
  · have h0 : (ReadResult.bytes l).length = 0 := by simp [ReadResult.length, hl]
    simp [setupBufWrites, h0] at hk
  · have hlenpos : ¬ (ReadResult.bytes l).length = 0 := by
      simp only [ReadResult.length]
      omega
    have hlennn : ¬ ((ReadResult.bytes l).length < 0 ∧ (ReadResult.bytes l).errno ≠ EINTR) := by
      simp only [ReadResult.length]
      omega
    have htoNat : (ReadResult.bytes l).length.toNat = l.length := by
      simp only [ReadResult.length]
      omega
    obtain ⟨s0, hs0⟩ : ∃ s0 : SetupState, s0 =
        { inputBuffer := ReadResult.store buf0 (.bytes l), args := args0, background := bg,
          start := -1, ct := 0 } := ⟨_, rfl⟩
    have hzero : s0.inputBuffer.getD 0 NUL ≠ '&' := by
      rw [hs0]
      cases l with
      | nil => exact absurd rfl hl
      | cons x xs =>
        intro e
        apply hfirst
        simp only [ReadResult.store, List.cons_append, List.getD_cons_zero] at e
        rw [List.head?_cons, e]
    simp only [setupBufWrites, hlenpos, hlennn, if_false, htoNat, ← hs0, List.mem_flatMap,
      List.mem_range] at hk
    obtain ⟨i, hi, hki⟩ := hk
    unfold stepBufWrites at hki
    simp only [setupLoop_getD] at hki
    split_ifs at hki with h1 h2 h3
    · rw [List.mem_singleton] at hki
      omega
    · rw [List.mem_singleton] at hki
      omega
    · rw [List.mem_singleton] at hki
      have hi0 : i ≠ 0 := by
        intro e
        rw [e] at h3
        exact hzero h3
      omega
    · cases hki

/-- C4, as the code has it: for every non-empty read of at most `MAX_LINE` bytes whose only
newline, if any, is its last byte and whose first byte is not `&`, into the argument array of
`MAX_LINE / 2 + 1` entries and with the flag reset to 0 before the call as `main` does, `setup`
returns and the background flag is 1 exactly when the bytes read hold a `&` somewhere, and 0
otherwise; so it is 1 whenever the line ends with the trailing marker.  On these reads every
write of `setup` to `args` and to `inputBuffer` is inside the array it is made to. -/
theorem setup_background_iff_amp (buf0 : List Char) (args0 : List (Option Nat))
    (l : List Char) (hl : l ≠ []) (hlen : l.length ≤ MAX_LINE)
    (hargs : args0.length = MAX_LINE / 2 + 1)
    (hnl : ∀ c ∈ l.dropLast, c ≠ '\n') (hfirst : l.head? ≠ some '&') :
    (∃ buf args n bg, setup buf0 args0 0 (.bytes l) = .returned buf args bg n ∧
      (bg = 1 ↔ '&' ∈ l) ∧ (bg = 0 ↔ '&' ∉ l) ∧ (trailingMarker l = true → bg = 1)) ∧
    (∀ k ∈ setupArgWrites buf0 args0 0 (.bytes l), k < args0.length) ∧
    (∀ k ∈ setupBufWrites buf0 args0 0 (.bytes l), 0 ≤ k ∧ k < (l.length : Int)) :=
  ⟨setup_background_flag buf0 args0 l hl, setupArgWrites_lt buf0 args0 0 l hlen hargs hnl,
    setupBufWrites_in_bounds buf0 args0 0 l hfirst⟩

/-- C4 as amended, at the line `a&b c`. -/
theorem setup_background_iff_amp_witness :
    (∃ buf args n bg, setup (List.replicate 80 NUL) (List.replicate 41 none) 0
        (.bytes "a&b c\n".toList) = .returned buf args bg n ∧
      (bg = 1 ↔ '&' ∈ "a&b c\n".toList) ∧ (bg = 0 ↔ '&' ∉ "a&b c\n".toList) ∧
      (trailingMarker "a&b c\n".toList = true → bg = 1)) ∧
    (∀ k ∈ setupArgWrites (List.replicate 80 NUL) (List.replicate 41 none) 0
        (.bytes "a&b c\n".toList), k < (List.replicate 41 (none : Option Nat)).length) ∧
    (∀ k ∈ setupBufWrites (List.replicate 80 NUL) (List.replicate 41 none) 0
        (.bytes "a&b c\n".toList), 0 ≤ k ∧ k < ("a&b c\n".toList.length : Int)) :=
  setup_background_iff_amp (List.replicate 80 NUL) (List.replicate 41 none) "a&b c\n".toList
    (by decide) (by decide) (by decide) (by decide) (by decide)

end Shell

namespace SqrtSum

/-! ## Theorems -/

theorem wrap64_eq (x : Int) (h1 : -2 ^ 63 ≤ x) (h2 : x < 2 ^ 63) : wrap64 x = x := by
  unfold wrap64
  omega

theorem rangePerThread_spec (a b n : Int) (hab : a ≤ b) (hd : b - a < 2 ^ 63) (hn : 1 ≤ n) :
    0 ≤ rangePerThread a b n ∧ rangePerThread a b n * n ≤ b - a ∧
      b - a < (rangePerThread a b n + 1) * n := by
  have h0 : 0 ≤ b - a := by omega
  have hr : rangePerThread a b n = (b - a) / n := by
    unfold rangePerThread
    rw [wrap64_eq (b - a) (by omega) hd]
    exact Int.tdiv_eq_ediv h0 (by omega)
  rw [hr]
  exact ⟨Int.ediv_nonneg h0 (by omega), Int.ediv_mul_le _ (by omega),
    Int.lt_ediv_add_one_mul_self _ (by omega)⟩

/-- The ranges as the claim writes them, when nothing overflows. -/
theorem threadArgs_eq (a b n r : Int) (i : Nat) (ha : -2 ^ 63 < a) (hab : a ≤ b)
    (hb : b < 2 ^ 63) (hd : b - a < 2 ^ 63) (hr0 : 0 ≤ r) (hrn : r * n ≤ b - a)
    (hi : (i : Int) < n) :
    threadArgs a b n r i
      = { start := a + (i : Int) * r,
          stop := if (i : Int) = n - 1 then b else a + ((i : Int) + 1) * r - 1 } ∧
    a ≤ a + (i : Int) * r ∧ a + ((i : Int) + 1) * r ≤ b := by
  have hi0 : (0 : Int) ≤ (i : Int) := Int.natCast_nonneg i
  have h1 : 0 ≤ (i : Int) * r := mul_nonneg hi0 hr0
  have h2 : ((i : Int) + 1) * r ≤ r * n := by nlinarith [mul_nonneg (by omega : 0 ≤ n - (i + 1)) hr0]
  have h3 : (i : Int) * r ≤ ((i : Int) + 1) * r := by nlinarith
  refine ⟨?_, by omega, by omega⟩
  unfold threadArgs
  rw [wrap64_eq ((i : Int) * r) (by omega) (by omega),
    wrap64_eq (a + (i : Int) * r) (by omega) (by omega),
    wrap64_eq (((i : Int) + 1) * r) (by omega) (by omega),
    wrap64_eq (a + ((i : Int) + 1) * r) (by omega) (by omega),
    wrap64_eq (a + ((i : Int) + 1) * r - 1) (by omega) (by omega)]

/-- C21 as the code has it: for all `long long` values `a ≤ b` with `a > LLONG_MIN` and
`b - a ≤ LLONG_MAX` (so that neither `b - a` nor `a - 1` overflows) and every thread count
`n ≥ 1`, with `rangePerThread = (b - a) / n` as `main` computes it, the three functions hand
thread `i` the range `start = a + i * rangePerThread`, `end = a + (i + 1) * rangePerThread - 1`
(`end = b` for the last thread), and these ranges split `[a, b]`: every `k` with `a ≤ k ≤ b`
lies in the range of exactly one thread and no range holds an integer outside `[a, b]`. -/
theorem thread_ranges_split (a b n : Int) (ha : -2 ^ 63 < a) (hab : a ≤ b) (hb : b < 2 ^ 63)
    (hd : b - a < 2 ^ 63) (hn : 1 ≤ n) :
    (main a b n 1 = some ((List.range n.toNat).map (threadArgs a b n (rangePerThread a b n))) ∧
      main a b n 2 = main a b n 1 ∧ main a b n 3 = main a b n 1) ∧
    (∀ i : Nat, (i : Int) < n →
      threadArgs a b n (rangePerThread a b n) i
        = { start := a + (i : Int) * rangePerThread a b n,
            stop := if (i : Int) = n - 1 then b
                    else a + ((i : Int) + 1) * rangePerThread a b n - 1 }) ∧
    (∀ k, a ≤ k → k ≤ b →
      ∃ i : Nat, (i : Int) < n ∧ (threadArgs a b n (rangePerThread a b n) i).covers k ∧
        ∀ j : Nat, (j : Int) < n → (threadArgs a b n (rangePerThread a b n) j).covers k →
          j = i) ∧
    (∀ (i : Nat) (k : Int), (i : Int) < n →
      (threadArgs a b n (rangePerThread a b n) i).covers k → a ≤ k ∧ k ≤ b) := by
  obtain ⟨hr0, hrn, hrlt⟩ := rangePerThread_spec a b n hab hd hn
  obtain ⟨r, hr⟩ : ∃ r, rangePerThread a b n = r := ⟨_, rfl⟩
  rw [hr] at hr0 hrn hrlt ⊢
  have hargs := fun (i : Nat) (hi : (i : Int) < n) => threadArgs_eq a b n r i ha hab hb hd hr0 hrn hi
  have hcov : ∀ (i : Nat) (k : Int), (i : Int) < n →
      ((threadArgs a b n r i).covers k ↔
        a + (i : Int) * r ≤ k ∧ k ≤ (if (i : Int) = n - 1 then b else a + ((i : Int) + 1) * r - 1)) := by
    intro i k hi
    rw [(hargs i hi).1]
    rfl
  have huniq : ∀ (i j : Nat) (k : Int), (i : Int) < n → (j : Int) < n → i < j →
      (threadArgs a b n r i).covers k → (threadArgs a b n r j).covers k → False := by
    intro i j k hi hj hij hci hcj
    rw [hcov i k hi] at hci
    rw [hcov j k hj] at hcj
    have hne : ¬ (i : Int) = n - 1 := by omega
    rw [if_neg hne] at hci
    have hmono : ((i : Int) + 1) * r ≤ (j : Int) * r := by
      have hle : (i : Int) + 1 ≤ (j : Int) := by omega
      nlinarith [mul_nonneg (by omega : (0 : Int) ≤ (j : Int) - ((i : Int) + 1)) hr0]
    omega
  refine ⟨⟨?_, ?_, ?_⟩, fun i hi => (hargs i hi).1, ?_, ?_⟩
  · have hn0 : ¬ n = 0 := by omega
    simp only [main, hn0, if_false, if_true, executeMethod1, hr]
  · have hn0 : ¬ n = 0 := by omega
    simp [main, hn0, executeMethod1, executeMethod2]
  · have hn0 : ¬ n = 0 := by omega
    simp [main, hn0, executeMethod1, executeMethod3]
  · intro k hak hkb
    obtain ⟨i, hi, hc⟩ : ∃ i : Nat, (i : Int) < n ∧ (threadArgs a b n r i).covers k := by
      by_cases hq : r = 0 ∨ n - 1 ≤ (k - a) / r
      · refine ⟨(n - 1).toNat, by omega, ?_⟩
        rw [hcov _ k (by omega)]
        have hcast : (((n - 1).toNat : Nat) : Int) = n - 1 := by omega
        rw [hcast, if_pos rfl]
        refine ⟨?_, hkb⟩
        rcases hq with h0 | hge
        · rw [h0]
          omega
        · by_cases h0 : r = 0
          · rw [h0]
            omega
          · have hq1 : (k - a) / r * r ≤ k - a := Int.ediv_mul_le _ h0
            have hq2 : (n - 1) * r ≤ (k - a) / r * r := by
              nlinarith [mul_nonneg (by omega : (0 : Int) ≤ (k - a) / r - (n - 1)) hr0]
            omega
      · have hrpos : 0 < r := by
          rcases lt_or_eq_of_le hr0 with h | h
          · exact h
          · exact absurd (Or.inl h.symm) hq
        have hqlt : (k - a) / r < n - 1 := by
          by_contra h
          exact hq (Or.inr (by omega))
        have hq0 : 0 ≤ (k - a) / r := Int.ediv_nonneg (by omega) hr0
        refine ⟨((k - a) / r).toNat, by omega, ?_⟩
        rw [hcov _ k (by omega)]
        have hcast : ((((k - a) / r).toNat : Nat) : Int) = (k - a) / r := by omega
        rw [hcast, if_neg (by omega)]
        have hq1 : (k - a) / r * r ≤ k - a := Int.ediv_mul_le _ (by omega)
        have hq2 : k - a < ((k - a) / r + 1) * r := Int.lt_ediv_add_one_mul_self _ hrpos
        constructor <;> omega
    refine ⟨i, hi, hc, ?_⟩
    intro j hj hcj
    rcases Nat.lt_trichotomy i j with h | h | h
    · exact absurd (huniq i j k hi hj h hc hcj) id
    · exact h.symm
    · exact absurd (huniq j i k hj hi h hcj hc) id
  · intro i k hi hc
    rw [hcov i k hi] at hc
    obtain ⟨h1, h2⟩ := hargs i hi |>.2
    by_cases hlast : (i : Int) = n - 1
    · rw [if_pos hlast] at hc
      omega
    · rw [if_neg hlast] at hc
      omega

/-- C21 as amended, at `a = 1`, `b = 10` and 3 threads. -/
theorem thread_ranges_split_witness :
    (main 1 10 3 1 = some ((List.range (3 : Int).toNat).map
        (threadArgs 1 10 3 (rangePerThread 1 10 3))) ∧
      main 1 10 3 2 = main 1 10 3 1 ∧ main 1 10 3 3 = main 1 10 3 1) ∧
    (∀ i : Nat, (i : Int) < 3 →
      threadArgs 1 10 3 (rangePerThread 1 10 3) i
        = { start := 1 + (i : Int) * rangePerThread 1 10 3,
            stop := if (i : Int) = 3 - 1 then 10
                    else 1 + ((i : Int) + 1) * rangePerThread 1 10 3 - 1 }) ∧
    (∀ k, 1 ≤ k → k ≤ 10 →
      ∃ i : Nat, (i : Int) < 3 ∧ (threadArgs 1 10 3 (rangePerThread 1 10 3) i).covers k ∧
        ∀ j : Nat, (j : Int) < 3 → (threadArgs 1 10 3 (rangePerThread 1 10 3) j).covers k →
          j = i) ∧
    (∀ (i : Nat) (k : Int), (i : Int) < 3 →
      (threadArgs 1 10 3 (rangePerThread 1 10 3) i).covers k → 1 ≤ k ∧ k ≤ 10) :=
  thread_ranges_split 1 10 3 (by decide) (by decide) (by decide) (by decide) (by decide)

/-- C21 as stated fails at the ends of `long long`.  With `a = b = LLONG_MIN` and 2 threads,
`rangePerThread` is 0 and `a - 1` wraps: thread 0 gets `[LLONG_MIN, LLONG_MAX]`, which holds 0,
outside `[a, b]`, and `a` lies in the ranges of both threads.  With `a = LLONG_MIN + 1`,
`b = LLONG_MAX` and 2 threads, `b - a` wraps to -2: thread 1 gets a range that starts at
`LLONG_MIN`, below `a`, and 0 lies in both ranges. -/
theorem thread_ranges_overflow :
    main (-2 ^ 63) (-2 ^ 63) 2 1
      = some [⟨-2 ^ 63, 2 ^ 63 - 1⟩, ⟨-2 ^ 63, -2 ^ 63⟩] ∧
    (threadArgs (-2 ^ 63) (-2 ^ 63) 2 (rangePerThread (-2 ^ 63) (-2 ^ 63) 2) 0).covers 0 ∧
    (threadArgs (-2 ^ 63) (-2 ^ 63) 2 (rangePerThread (-2 ^ 63) (-2 ^ 63) 2) 0).covers
      (-2 ^ 63) ∧
    (threadArgs (-2 ^ 63) (-2 ^ 63) 2 (rangePerThread (-2 ^ 63) (-2 ^ 63) 2) 1).covers
      (-2 ^ 63) ∧
    main (-2 ^ 63 + 1) (2 ^ 63 - 1) 2 1
      = some [⟨-2 ^ 63 + 1, 2 ^ 63 - 1⟩, ⟨-2 ^ 63, 2 ^ 63 - 1⟩] ∧
    (threadArgs (-2 ^ 63 + 1) (2 ^ 63 - 1) 2
      (rangePerThread (-2 ^ 63 + 1) (2 ^ 63 - 1) 2) 1).covers (-2 ^ 63) ∧
    (threadArgs (-2 ^ 63 + 1) (2 ^ 63 - 1) 2
      (rangePerThread (-2 ^ 63 + 1) (2 ^ 63 - 1) 2) 0).covers 0 ∧
    (threadArgs (-2 ^ 63 + 1) (2 ^ 63 - 1) 2
      (rangePerThread (-2 ^ 63 + 1) (2 ^ 63 - 1) 2) 1).covers 0 := by
  refine ⟨by decide, by decide, by decide, by decide, by decide, by decide, by decide,
    by decide⟩

end SqrtSum
